import Mathlib

/-! The alignment scorer of the fast-align model.

A shallow embedding of `Model::ComputeAlignment` and `Model::ComputeAlignments` from
`src/aligner-fastalign/src/native/fastalign/Model.cpp`, followed by the properties
proved about them.

Conventions of the embedding.

* The definitions are stated over any type `K` with the operations that the code uses on
  `double`.  Over `Dbl`, the binary64 numbers with the operations of IEEE 754 (rounding to
  nearest, ties to even, gradual underflow, infinities and NaN), they are the code as it
  runs; over a linearly ordered field they are the code in exact arithmetic.  The general
  theorems are proved over a field and say so; evaluations over `Dbl` show where rounding
  makes the code depart from them.  Every definition is computable and can be evaluated over
  `ℚ` and over `Dbl`.  In a field of Lean `x / 0 = 0`, whereas the machine quotient is an
  infinity or a NaN: statements about the value of a quotient are made where the divisor is
  non-zero, and the statements that concern a zero divisor only say that the quotient is
  formed and passed on.
* `wid_t`, `length_t` and `alignment_t` are declared in a header outside the sources; token
  ids and lengths are natural numbers, the sequences are taken to be short enough for the
  casts to `length_t` to be the identity.
* `vector<double> probs` is a list, `probs[i] = v` is `List.set`, reading `probs[i]` is
  `List.getD _ i 0`.
* A `for` loop over `i = 1 .. src_size` is a left fold over `List.range' 1 src_size`, the loop
  over `j = 0 .. trg_size - 1` a left fold over `List.range trg_size`; mutable locals are the
  fields of the folded state.
* The iterations of the parallel loop of `ComputeAlignments` are taken in the order of the
  indices; the reduction of `emp_feat` is the sum of the contributions.
* The calls `outTable->increment(e, f, amount)` are recorded, in order, as a list of triples;
  `outTable` itself is the `Bool` "a sink was supplied".  `outAlignment` is
  `Option alignment_t`: `none` for `NULL`, `some a` for a sink holding `a`.
-/

namespace FastAlign

/-- Token identifiers (`wid_t`). -/
abbrev wid_t := Nat

/-- Sentence lengths and positions (`length_t`). -/
abbrev length_t := Nat

/-- An alignment: the list of links `(source_index, target_index)`. -/
abbrev alignment_t := List (Nat × Nat)

/-- The static functions of `DiagonalAlignment` (header `DiagonalAlignment.h`, which is not
part of the sources), taken as parameters. -/
structure DiagonalAlignment (K : Type) where
  /-- The call `DiagonalAlignment::Feature(j, i, n, m)`. -/
  Feature : Nat → Nat → Nat → Nat → K
  /-- The call `DiagonalAlignment::UnnormalizedProb(j, i, n, m, tension)`. -/
  UnnormalizedProb : Nat → Nat → Nat → Nat → K → K
  /-- The call `DiagonalAlignment::ComputeZ(j, n, m, tension)`. -/
  ComputeZ : Nat → Nat → Nat → K → K

/-- Modelled from the spec: `DiagonalAlignment::Feature`, whose definition is in the missing
header `DiagonalAlignment.h`; the spec gives `feature(j, i, n, m) = -| i/m − j/n |`. -/
def specFeature {K : Type} [LinearOrderedField K] (j i n m : Nat) : K :=
  -|(i : K) / (m : K) - (j : K) / (n : K)|

/-- The fields of `Model`, with the members declared in the missing header `Model.h`:
`GetProbability` is the lookup in the translation table, `kAlignerNullWord` the id of the
null word, `diagonal` the functions of `DiagonalAlignment`. -/
structure Model (K : Type) where
  GetProbability : wid_t → wid_t → K
  kAlignerNullWord : wid_t
  diagonal : DiagonalAlignment K
  is_reverse : Bool
  use_null : Bool
  favor_diagonal : Bool
  prob_align_null : K
  diagonal_tension : K

/-- The locals `probs`, `sum` and `prob_a_i` of one iteration of the loop over `j`. -/
structure Scores (K : Type) where
  probs : List K
  sum : K
  prob_a_i : K

/-- The locals `max_p` and `max_index` of the arg-max extraction. -/
structure Best (K : Type) where
  max_p : K
  max_index : Int

/-- What the loop over `j` carries: the returned scalar, the array `probs`, the calls to
`increment` made so far and the contents of the alignment sink. -/
structure State (K : Type) where
  emp_feat : K
  probs : List K
  increments : List (wid_t × wid_t × K)
  alignment : Option alignment_t

/-- The observable outcome of `ComputeAlignment`. -/
structure Result (K : Type) where
  emp_feat : K
  increments : List (wid_t × wid_t × K)
  alignment : Option alignment_t

section Code

/-! The code only uses the constants 0 and 1, the four operations, the negation, the
conversion of an integer and the comparison `<` on `double`: the definitions are stated over
any type `K` with these, so that they can be read over a field (exact arithmetic) as well as
over the binary64 numbers `Dbl` defined below. -/

variable {K : Type} [Zero K] [One K] [Add K] [Sub K] [Mul K] [Div K] [Neg K] [NatCast K]
  [LT K] [DecidableRel (fun a b : K => a < b)]

/-- Lines 50-60: `sum = 0`, the uniform `prob_a_i`, and the null slot `probs[0]`. -/
def nullScore (M : Model K) (f_j : wid_t) (src_size : Nat) (probs : List K) : Scores K :=
  let sum : K := 0
  let prob_a_i : K := 1 / ((src_size + (if M.use_null then 1 else 0) : Nat) : K)
  if M.use_null then
    let prob_a_i := if M.favor_diagonal then M.prob_align_null else prob_a_i
    let p0 := M.GetProbability M.kAlignerNullWord f_j * prob_a_i
    { probs := probs.set 0 p0, sum := sum + p0, prob_a_i := prob_a_i }
  else
    { probs := probs, sum := sum, prob_a_i := prob_a_i }

/-- Lines 62-65: the normaliser `az` of the diagonal prior. -/
def computeAz (M : Model K) (j trg_size src_size : Nat) : K :=
  if M.favor_diagonal then
    M.diagonal.ComputeZ (j + 1) trg_size src_size M.diagonal_tension / (1 - M.prob_align_null)
  else 0

/-- Lines 68-73: the body of the loop that fills `probs[i]` and adds it to `sum`.  The
quotient of line 69, the product of line 72 and the sum of line 73 are the operations of `K`:
rounded, with underflow, over `Dbl`, exact over a field. -/
def scoreBody (M : Model K) (src : List wid_t) (f_j : wid_t) (j trg_size src_size : Nat)
    (az : K) (s : Scores K) (i : Nat) : Scores K :=
  let prob_a_i :=
    if M.favor_diagonal then
      M.diagonal.UnnormalizedProb (j + 1) i trg_size src_size M.diagonal_tension / az
    else s.prob_a_i
  let p := M.GetProbability (src.getD (i - 1) 0) f_j * prob_a_i
  { probs := s.probs.set i p, sum := s.sum + p, prob_a_i := prob_a_i }

/-- Lines 50-74: the scores of all candidates for target position `j`. -/
def fillScores (M : Model K) (src : List wid_t) (f_j : wid_t) (j trg_size src_size : Nat)
    (probs : List K) : Scores K :=
  let s := nullScore M f_j src_size probs
  let az := computeAz M j trg_size src_size
  (List.range' 1 src_size).foldl (scoreBody M src f_j j trg_size src_size az) s

/-- Lines 77-82: the count of the null candidate. -/
def nullCount (M : Model K) (f_j : wid_t) (outTable : Bool) (probs : List K) (sum : K)
    (increments : List (wid_t × wid_t × K)) : List (wid_t × wid_t × K) :=
  if M.use_null then
    let count := probs.getD 0 0 / sum
    if outTable then increments ++ [(M.kAlignerNullWord, f_j, count)] else increments
  else increments

/-- Lines 85-90: the body of the loop over the source candidates; the state is
`(emp_feat, increments)`.  The quotient `probs[i] / sum` of line 85 is the division of `K`:
rounded, and an infinity or NaN for a zero `sum`, over `Dbl`; exact, and 0 for a zero `sum`,
over a field of Lean. -/
def countBody (M : Model K) (src : List wid_t) (f_j : wid_t) (j trg_size src_size : Nat)
    (outTable : Bool) (probs : List K) (sum : K)
    (c : K × List (wid_t × wid_t × K)) (i : Nat) : K × List (wid_t × wid_t × K) :=
  let p := probs.getD i 0 / sum
  let increments := if outTable then c.2 ++ [(src.getD (i - 1) 0, f_j, p)] else c.2
  (c.1 + M.diagonal.Feature j i trg_size src_size * p, increments)

/-- Lines 95-100: the initial `max_p` and `max_index`. -/
def bestInit (M : Model K) (probs : List K) : Best K :=
  let b : Best K := { max_p := -1, max_index := -1 }
  if M.use_null then { max_p := probs.getD 0 0, max_index := 0 } else b

/-- Lines 103-106: the body of the arg-max loop. -/
def bestBody (probs : List K) (b : Best K) (i : Nat) : Best K :=
  if probs.getD i 0 > b.max_p then { max_p := probs.getD i 0, max_index := (i : Int) } else b

/-- Lines 95-107: the arg-max over the candidates. -/
def bestLoop (M : Model K) (src_size : Nat) (probs : List K) : Best K :=
  (List.range' 1 src_size).foldl (bestBody probs) (bestInit M probs)

/-- Lines 109-114: the link pushed for position `j`, given `max_index`. -/
def pushLink (M : Model K) (j : Nat) (max_index : Int) (a : alignment_t) : alignment_t :=
  if max_index > 0 then
    if M.is_reverse then a ++ [(j, (max_index - 1).toNat)]
    else a ++ [((max_index - 1).toNat, j)]
  else a

/-- Lines 49-115: the body of the loop over the target positions. -/
def targetStep (M : Model K) (src trg : List wid_t) (src_size trg_size : Nat)
    (outTable : Bool) (s : State K) (j : Nat) : State K :=
  let f_j := trg.getD j 0
  let sc := fillScores M src f_j j trg_size src_size s.probs
  let incs := nullCount M f_j outTable sc.probs sc.sum s.increments
  let c := (List.range' 1 src_size).foldl
    (countBody M src f_j j trg_size src_size outTable sc.probs sc.sum) (s.emp_feat, incs)
  let alignment :=
    match s.alignment with
    | some a => some (pushLink M j (bestLoop M src_size sc.probs).max_index a)
    | none => none
  { emp_feat := c.1, probs := sc.probs, increments := c.2, alignment := alignment }

/-- Lines 43-118: the body of `ComputeAlignment` once `src` and `trg`, the two sequences in
scoring orientation, are fixed. -/
def scorePair (M : Model K) (src trg : List wid_t) (outTable : Bool)
    (outAlignment : Option alignment_t) : Result K :=
  let emp_feat : K := 0
  let probs : List K := List.replicate (src.length + 1) 0
  let src_size := src.length
  let trg_size := trg.length
  let s := (List.range trg_size).foldl (targetStep M src trg src_size trg_size outTable)
    { emp_feat := emp_feat, probs := probs, increments := [], alignment := outAlignment }
  { emp_feat := s.emp_feat, increments := s.increments, alignment := s.alignment }

/-- Line 40: the sequence scored as source. -/
def scoringSrc (M : Model K) (source target : List wid_t) : List wid_t :=
  if M.is_reverse then target else source

/-- Line 41: the sequence scored as target. -/
def scoringTrg (M : Model K) (source target : List wid_t) : List wid_t :=
  if M.is_reverse then source else target

/-- The function `Model::ComputeAlignment` (lines 36-119). -/
def ComputeAlignment (M : Model K) (source target : List wid_t) (outTable : Bool)
    (outAlignment : Option alignment_t) : Result K :=
  scorePair M (scoringSrc M source target) (scoringTrg M source target) outTable outAlignment

/-- The state of the loop of `ComputeAlignments`: the reduced scalar, the calls to
`increment` made on the shared table, and the vector of alignments. -/
structure BatchState (K : Type) where
  emp_feat : K
  increments : List (wid_t × wid_t × K)
  outAlignments : Option (List alignment_t)

/-- The call `outAlignments->resize(n)`: the first `n` slots are kept as they are, missing
slots are added empty. -/
def resize (a : List alignment_t) (n : Nat) : List alignment_t :=
  a.take n ++ List.replicate (n - a.length) []

/-- Lines 29-30: the body of the loop of `ComputeAlignments`.  The pair `batch[i]` is scored
with the slot `outAlignments->at(i)` as alignment sink, and the slot receives what the call
leaves in it. -/
def batchStep (M : Model K) (batch : List (List wid_t × List wid_t)) (outTable : Bool)
    (s : BatchState K) (i : Nat) : BatchState K :=
  let p := batch.getD i ([], [])
  let r := ComputeAlignment M p.1 p.2 outTable
    (match s.outAlignments with
      | some a => some (a.getD i [])
      | none => none)
  { emp_feat := s.emp_feat + r.emp_feat
    increments := s.increments ++ r.increments
    outAlignments :=
      match s.outAlignments with
      | some a => some (a.set i (r.alignment.getD []))
      | none => none }

/-- The function `Model::ComputeAlignments` (lines 20-34), with the iterations of the
parallel loop taken in the order of the indices. -/
def ComputeAlignments (M : Model K) (batch : List (List wid_t × List wid_t)) (outTable : Bool)
    (outAlignments : Option (List alignment_t)) : BatchState K :=
  let emp_feat : K := 0
  let outAlignments :=
    match outAlignments with
    | some a => some (resize a batch.length)
    | none => none
  (List.range batch.length).foldl (batchStep M batch outTable)
    { emp_feat := emp_feat, increments := [], outAlignments := outAlignments }

/-! ### Quantities of one target position, read off the code -/

/-- The candidates of a target position, in the order of the loops: `0` (the null word) when
`use_null` is on, then the source positions `1 .. src_size`. -/
def candidates (M : Model K) (src_size : Nat) : List Nat :=
  (if M.use_null then [0] else []) ++ List.range' 1 src_size

/-- The token of candidate `c`: `kAlignerNullWord` for `0`, `src[c - 1]` otherwise. -/
def candidateToken (M : Model K) (src : List wid_t) (c : Nat) : wid_t :=
  if c = 0 then M.kAlignerNullWord else src.getD (c - 1) 0

/-- The state of `probs`, `sum` and `prob_a_i` after lines 50-74 at target position `j`, when
`probs` is the freshly allocated array. -/
def scoresAt (M : Model K) (src trg : List wid_t) (j : Nat) : Scores K :=
  fillScores M src (trg.getD j 0) j trg.length src.length (List.replicate (src.length + 1) 0)

/-- The posterior `probs[c] / sum` of candidate `c` at target position `j`. -/
def posterior (M : Model K) (src trg : List wid_t) (j c : Nat) : K :=
  (scoresAt M src trg j).probs.getD c 0 / (scoresAt M src trg j).sum

/-- The value of `max_index` after lines 95-107 at target position `j`. -/
def selected (M : Model K) (src trg : List wid_t) (j : Nat) : Int :=
  (bestLoop M src.length (scoresAt M src trg j).probs).max_index

/-- The positional weight `prob_a_i` of the null candidate (lines 51-57). -/
def nullWeight (M : Model K) (src_size : Nat) : K :=
  if M.favor_diagonal then M.prob_align_null
  else 1 / ((src_size + (if M.use_null then 1 else 0) : Nat) : K)

/-- The positional weight `prob_a_i` of source position `i` (lines 51-54 and 68-71). -/
def srcWeight (M : Model K) (j trg_size src_size i : Nat) : K :=
  if M.favor_diagonal then
    M.diagonal.UnnormalizedProb (j + 1) i trg_size src_size M.diagonal_tension /
      computeAz M j trg_size src_size
  else 1 / ((src_size + (if M.use_null then 1 else 0) : Nat) : K)

/-- The unnormalised score `probs[c]` of candidate `c` at target position `j` in closed form
(lines 58 and 72). -/
def score (M : Model K) (src trg : List wid_t) (j c : Nat) : K :=
  if c = 0 then M.GetProbability M.kAlignerNullWord (trg.getD j 0) * nullWeight M src.length
  else M.GetProbability (src.getD (c - 1) 0) (trg.getD j 0) *
    srcWeight M j trg.length src.length c

/-- The normalisation sum of target position `j` in closed form (lines 59 and 73). -/
def normSum (M : Model K) (src trg : List wid_t) (j : Nat) : K :=
  ((candidates M src.length).map (score M src trg j)).sum

/-- The value written to `probs[i]` by the body of the scoring loop when `prob_a_i` holds
`pa` on entry (lines 68-72). -/
def bodyScore (M : Model K) (src : List wid_t) (f_j : wid_t) (j trg_size src_size : Nat)
    (az pa : K) (i : Nat) : K :=
  M.GetProbability (src.getD (i - 1) 0) f_j *
    (if M.favor_diagonal then
      M.diagonal.UnnormalizedProb (j + 1) i trg_size src_size M.diagonal_tension / az
    else pa)

/-- The term that target position `j` adds to `emp_feat` (lines 84-91). -/
def featureTerm (M : Model K) (src trg : List wid_t) (j : Nat) : K :=
  ((List.range' 1 src.length).map
    (fun i => M.diagonal.Feature j i trg.length src.length * posterior M src trg j i)).sum

/-- The calls to `increment` of target position `j`, in order (lines 77-91). -/
def incrementsAt (M : Model K) (src trg : List wid_t) (j : Nat) : List (wid_t × wid_t × K) :=
  (candidates M src.length).map
    (fun c => (candidateToken M src c, trg.getD j 0, posterior M src trg j c))

/-- The links pushed at target position `j` (lines 94-115): none or one. -/
def linkAt (M : Model K) (src trg : List wid_t) (j : Nat) : alignment_t :=
  pushLink M j (selected M src trg j) []

end Code

/-- The prior at tension 0 together with the feature of the spec: `UnnormalizedProb` is the
constant 1 and `ComputeZ` the number `m` of source positions. -/
def flatDiagonal : DiagonalAlignment ℚ where
  Feature := specFeature
  UnnormalizedProb := fun _ _ _ _ _ => 1
  ComputeZ := fun _ _ m _ => (m : ℚ)

/-- The scalar as the contract describes it: the sum over the target positions `j` and the
source positions `i` of `feature(j + 1, i, n, m) * posterior_j(i)`. -/
def claimedEmpFeat {K : Type} [LinearOrderedField K] (M : Model K) (src trg : List wid_t) : K :=
  ((List.range trg.length).map (fun j =>
    ((List.range' 1 src.length).map (fun i =>
      M.diagonal.Feature (j + 1) i trg.length src.length * posterior M src trg j i)).sum)).sum

/-- The amounts passed to `increment` by one run of the loop body at target position `j`,
entered with the array `probs`. -/
def amountsAt {K : Type} [LinearOrderedField K] (M : Model K) (src trg : List wid_t) (j : Nat)
    (probs : List K) : List K :=
  (targetStep M src trg src.length trg.length true
    { emp_feat := 0, probs := probs, increments := [], alignment := none } j).increments.map
    (fun t => t.2.2)

/-- Modelled from the spec: `ttable_t::increment`, declared outside the sources; the spec
makes it a purely additive update of the entry `(e, f)`. -/
def increment {K : Type} [LinearOrderedField K] (T : wid_t → wid_t → K) (e f : wid_t) (a : K) :
    wid_t → wid_t → K :=
  fun x y => if x = e ∧ y = f then T x y + a else T x y

/-- The table after a sequence of calls to `increment`. -/
def applyIncrements {K : Type} [LinearOrderedField K] (T : wid_t → wid_t → K)
    (l : List (wid_t × wid_t × K)) : wid_t → wid_t → K :=
  l.foldl (fun T t => increment T t.1 t.2.1 t.2.2) T

/-- A model without null word and without diagonal prior, over the table that is constantly 1,
in forward orientation. -/
def plainModel : Model ℚ :=
  { GetProbability := fun _ _ => 1, kAlignerNullWord := 0, diagonal := flatDiagonal,
    is_reverse := false, use_null := false, favor_diagonal := false, prob_align_null := 0,
    diagonal_tension := 0 }

/-- The model `plainModel` with the null word (id 0) enabled. -/
def nullModel : Model ℚ := { plainModel with use_null := true }

/-- The model `plainModel` in reverse orientation. -/
def reverseModel : Model ℚ := { plainModel with is_reverse := true }

/-- A model without null word and diagonal prior whose table prefers the source token 8. -/
def preferModel : Model ℚ :=
  { plainModel with GetProbability := fun e _ => if e = 8 then 2 else 1 }

/-- The model `nullModel` over the table that is constantly 0. -/
def zeroModel : Model ℚ := { nullModel with GetProbability := fun _ _ => 0 }

/-- A model with null word and diagonal prior, a strictly positive table that gives the null
word (id 0) the value 2 and every other token the value 1, and `prob_align_null = -1`. -/
def negNullModel : Model ℚ :=
  { GetProbability := fun e _ => if e = 0 then 2 else 1, kAlignerNullWord := 0,
    diagonal := flatDiagonal, is_reverse := false, use_null := true, favor_diagonal := true,
    prob_align_null := -1, diagonal_tension := 0 }

/-- The model `nullModel` with the diagonal prior and `prob_align_null = 1/10`. -/
def diagModel : Model ℚ :=
  { nullModel with favor_diagonal := true, prob_align_null := 1 / 10 }

/-- The model `diagModel` with `prob_align_null = 0`. -/
def zeroNullModel : Model ℚ := { diagModel with prob_align_null := 0 }

/-- The links that `ComputeAlignment` emits for a pair: what it writes into an empty sink. -/
def emittedLinks {K : Type} [LinearOrderedField K] (M : Model K) (source target : List wid_t) :
    alignment_t :=
  ((ComputeAlignment M source target false (some [])).alignment).getD []

/-- The table probability `t(c, trg[j])` of candidate `c` at target position `j`. -/
def candidateProb {K : Type} (M : Model K) (src trg : List wid_t)
    (j c : Nat) : K :=
  M.GetProbability (candidateToken M src c) (trg.getD j 0)

/-- A model with the null word, without diagonal prior, whose table prefers the source token
7 over every other token and over the null word. -/
def scenarioModel : Model ℚ :=
  { nullModel with
    GetProbability := fun e _ => if e = 7 then 1 / 2 else 1 / 10, prob_align_null := 1 / 100 }

/-- The model over the table `c * t`. -/
def rescale {K : Type} [Mul K] (M : Model K) (c : K) : Model K :=
  { M with GetProbability := fun e f => c * M.GetProbability e f }

/-- A model with the diagonal prior, without null word, over the table that is constantly
`1/2`, with `prob_align_null = 2`. -/
def halfModel : Model ℚ :=
  { plainModel with
    GetProbability := fun _ _ => 1 / 2, favor_diagonal := true, prob_align_null := 2 }

/-- The model `plainModel` with the diagonal prior. -/
def priorModel : Model ℚ := { plainModel with favor_diagonal := true }

/-- Modelled from the spec: the diagonal prior of `DiagonalAlignment.h`, which is not part of
the sources, over an exponential function `expf` given as parameter; the spec gives
`unnormalizedProb(j, i, n, m, λ) = exp(λ · feature(j, i, n, m))` and `partitionZ(j, n, m, λ)`
as the sum of `unnormalizedProb(j, i, n, m, λ)` over `i = 1 .. m`. -/
def priorWith {K : Type} [LinearOrderedField K] (expf : K → K) : DiagonalAlignment K where
  Feature := specFeature
  UnnormalizedProb := fun j i n m t => expf (t * specFeature j i n m)
  ComputeZ := fun j n m t =>
    ((List.range' 1 m).map (fun i => expf (t * specFeature j i n m))).sum

/-- The model with the diagonal prior `priorWith expf`, without null word, in forward
orientation, over the table that is constantly `c`, with `prob_align_null = p` and tension
`t`. -/
def diagonalScenario {K : Type} [LinearOrderedField K] (expf : K → K) (c p t : K) : Model K :=
  { GetProbability := fun _ _ => c, kAlignerNullWord := 0, diagonal := priorWith expf,
    is_reverse := false, use_null := false, favor_diagonal := true, prob_align_null := p,
    diagonal_tension := t }

/-! ### The binary64 numbers

The type `double` of the code, on a platform with IEEE 754 arithmetic in its default mode:
every operation returns the exact result rounded to the nearest binary64 number, a tie going
to the even significand. -/

/-- A binary64 number: `fin neg m e` is `(-1)^neg * m * 2^e`, with `m < 2^53`, and either
`2^52 ≤ m` and `-1074 ≤ e ≤ 971` (normal), or `m < 2^52` and `e = -1074` (subnormal), or
`m = 0` and `e = 0` (the two zeros); `inf neg` is an infinity and `nan` the value NaN. -/
inductive Dbl where
  | fin (neg : Bool) (m : Nat) (e : Int)
  | inf (neg : Bool)
  | nan
deriving DecidableEq

/-- The number of halvings that bring `n` below 2, that is `⌊log₂ n⌋` for `n ≥ 1`, when
`fuel ≥ n`. -/
def Dbl.lg : Nat → Nat → Nat
  | 0, _ => 0
  | fuel + 1, n => if 2 ≤ n then Dbl.lg fuel (n / 2) + 1 else 0

/-- The fraction `n / d` with `n, d > 0`, under the sign `neg`, rounded to the nearest
binary64 number, ties to even; it overflows to an infinity and underflows gradually to the
subnormal numbers and to zero. -/
def Dbl.roundPos (neg : Bool) (n d : Nat) : Dbl :=
  let ln := Dbl.lg n n
  let ld := Dbl.lg d d
  let E : Int := if d * 2 ^ ln ≤ n * 2 ^ ld then (ln : Int) - ld else (ln : Int) - ld - 1
  let e : Int := max (E - 52) (-1074)
  let num := n * 2 ^ (-e).toNat
  let den := d * 2 ^ e.toNat
  let q := num / den
  let r := num % den
  let m := if den < 2 * r ∨ (2 * r = den ∧ q % 2 = 1) then q + 1 else q
  let m2 := if m = 2 ^ 53 then 2 ^ 52 else m
  let e2 := if m = 2 ^ 53 then e + 1 else e
  if 971 < e2 then Dbl.inf neg else if m2 = 0 then Dbl.fin neg 0 0 else Dbl.fin neg m2 e2

/-- The fraction `n / d` with `d > 0`, under the sign `neg`, rounded to binary64. -/
def Dbl.ofFraction (neg : Bool) (n d : Nat) : Dbl :=
  if n = 0 then Dbl.fin neg 0 0 else Dbl.roundPos neg n d

/-- The integer `m` under the sign `s`. -/
def Dbl.signed (s : Bool) (m : Nat) : Int :=
  if s then -(m : Int) else (m : Int)

/-- The unary minus of `double`. -/
def Dbl.neg : Dbl → Dbl
  | Dbl.fin s m e => Dbl.fin (!s) m e
  | Dbl.inf s => Dbl.inf (!s)
  | Dbl.nan => Dbl.nan

/-- The product of two `double`. -/
def Dbl.mul : Dbl → Dbl → Dbl
  | Dbl.nan, _ => Dbl.nan
  | _, Dbl.nan => Dbl.nan
  | Dbl.inf s, Dbl.inf t => Dbl.inf (xor s t)
  | Dbl.inf s, Dbl.fin t m _ => if m = 0 then Dbl.nan else Dbl.inf (xor s t)
  | Dbl.fin s m _, Dbl.inf t => if m = 0 then Dbl.nan else Dbl.inf (xor s t)
  | Dbl.fin s m e, Dbl.fin t k f =>
    Dbl.ofFraction (xor s t) (m * k * 2 ^ (e + f).toNat) (2 ^ (-(e + f)).toNat)

/-- The quotient of two `double`: a non-zero number over zero is an infinity, zero over zero
is NaN. -/
def Dbl.div : Dbl → Dbl → Dbl
  | Dbl.nan, _ => Dbl.nan
  | _, Dbl.nan => Dbl.nan
  | Dbl.inf _, Dbl.inf _ => Dbl.nan
  | Dbl.inf s, Dbl.fin t _ _ => Dbl.inf (xor s t)
  | Dbl.fin s _ _, Dbl.inf t => Dbl.fin (xor s t) 0 0
  | Dbl.fin s m e, Dbl.fin t k f =>
    if k = 0 then (if m = 0 then Dbl.nan else Dbl.inf (xor s t))
    else Dbl.ofFraction (xor s t) (m * 2 ^ (e - f).toNat) (k * 2 ^ (f - e).toNat)

/-- The sum of two `double`; an exact sum of zero is `+0`, unless both terms are `-0`. -/
def Dbl.add : Dbl → Dbl → Dbl
  | Dbl.nan, _ => Dbl.nan
  | _, Dbl.nan => Dbl.nan
  | Dbl.inf s, Dbl.inf t => if s = t then Dbl.inf s else Dbl.nan
  | Dbl.inf s, Dbl.fin _ _ _ => Dbl.inf s
  | Dbl.fin _ _ _, Dbl.inf t => Dbl.inf t
  | Dbl.fin s m e, Dbl.fin t k f =>
    let g := min e f
    let v := Dbl.signed s (m * 2 ^ (e - g).toNat) + Dbl.signed t (k * 2 ^ (f - g).toNat)
    if v = 0 then Dbl.fin (s && t) 0 0
    else Dbl.ofFraction (decide (v < 0)) (v.natAbs * 2 ^ g.toNat) (2 ^ (-g).toNat)

/-- The difference of two `double`. -/
def Dbl.sub (a b : Dbl) : Dbl :=
  Dbl.add a (Dbl.neg b)

/-- The comparison `a < b` of two `double`; it is false when one of them is NaN. -/
def Dbl.lt : Dbl → Dbl → Bool
  | Dbl.nan, _ => false
  | _, Dbl.nan => false
  | Dbl.inf s, Dbl.inf t => s && !t
  | Dbl.inf s, Dbl.fin _ _ _ => s
  | Dbl.fin _ _ _, Dbl.inf t => !t
  | Dbl.fin s m e, Dbl.fin t k f =>
    let g := min e f
    decide (Dbl.signed s (m * 2 ^ (e - g).toNat) < Dbl.signed t (k * 2 ^ (f - g).toNat))

/-- The conversion of an unsigned integer to `double`. -/
def Dbl.ofNat (n : Nat) : Dbl :=
  Dbl.ofFraction false n 1

instance : Zero Dbl := ⟨Dbl.fin false 0 0⟩

instance : One Dbl := ⟨Dbl.ofNat 1⟩

instance : Add Dbl := ⟨Dbl.add⟩

instance : Sub Dbl := ⟨Dbl.sub⟩

instance : Mul Dbl := ⟨Dbl.mul⟩

instance : Div Dbl := ⟨Dbl.div⟩

instance : Neg Dbl := ⟨Dbl.neg⟩

instance : NatCast Dbl := ⟨Dbl.ofNat⟩

instance : LT Dbl := ⟨fun a b => Dbl.lt a b = true⟩

instance : DecidableRel (fun a b : Dbl => a < b) :=
  fun a b => inferInstanceAs (Decidable (Dbl.lt a b = true))

/-- The `double` 0.75. -/
def threeQuarters : Dbl := Dbl.fin false 6755399441055744 (-53)

/-- The `double` that follows 0.75, that is `0.75 + 2^-53`. -/
def threeQuartersUp : Dbl := Dbl.fin false 6755399441055745 (-53)

/-- Modelled from the spec: `DiagonalAlignment::Feature` over `double`, that is
`-fabs(i/m - j/n)`. -/
def featureD (j i n m : Nat) : Dbl :=
  -(if (i : Dbl) / (m : Dbl) - (j : Dbl) / (n : Dbl) < 0
    then -((i : Dbl) / (m : Dbl) - (j : Dbl) / (n : Dbl))
    else (i : Dbl) / (m : Dbl) - (j : Dbl) / (n : Dbl))

/-- The prior at tension 0 over `double`: `UnnormalizedProb` is `exp(0) = 1` and `ComputeZ`
the number `m` of source positions. -/
def flatDiagonalD : DiagonalAlignment Dbl where
  Feature := featureD
  UnnormalizedProb := fun _ _ _ _ _ => 1
  ComputeZ := fun _ _ m _ => (m : Dbl)

/-- A model over `double` without null word and without diagonal prior, whose table gives
`0.75 + 2^-53` to the source token 8 and `0.75` to every other token. -/
def tieModel : Model Dbl :=
  { GetProbability := fun e _ => if e = 8 then threeQuartersUp else threeQuarters,
    kAlignerNullWord := 0, diagonal := flatDiagonalD, is_reverse := false, use_null := false,
    favor_diagonal := false, prob_align_null := 0, diagonal_tension := 0 }

/-- A model with the diagonal prior, without null word, with `prob_align_null = 2`, whose
table gives `1/2` to the source token 8 and `1/4` to every other token. -/
def negSumModel : Model ℚ :=
  { plainModel with
    GetProbability := fun e _ => if e = 8 then 1 / 2 else 1 / 4, favor_diagonal := true,
    prob_align_null := 2 }

/-- The `double` 0.5. -/
def oneHalf : Dbl := Dbl.fin false 4503599627370496 (-53)

/-- The `double` that follows 0.5, that is `0.5 + 2^-53`. -/
def oneHalfUp : Dbl := Dbl.fin false 4503599627370497 (-53)

/-- The `double` 0.2, the binary64 number nearest to `1/5`. -/
def oneFifth : Dbl := Dbl.fin false 7205759403792794 (-55)

/-- The `double` 0.1, the binary64 number nearest to `1/10`. -/
def oneTenth : Dbl := Dbl.fin false 7205759403792794 (-56)

/-- The model `tieModel` with the diagonal prior and `prob_align_null = p`. -/
def diagTieModel (p : Dbl) : Model Dbl :=
  { tieModel with favor_diagonal := true, prob_align_null := p }

/-- The model `tieModel` over the table that is constantly `2^-1074`, the smallest positive
`double`. -/
def tinyModel : Model Dbl :=
  { tieModel with GetProbability := fun _ _ => Dbl.fin false 1 (-1074) }

end FastAlign

namespace FastAlign

section Lemmas

set_option linter.unusedSectionVars false

variable {K : Type} [LinearOrderedField K]

/-! ### Writing into `probs` -/

theorem length_foldl_set (g : Nat → K) (l : List Nat) (p : List K) :
    (l.foldl (fun q i => q.set i (g i)) p).length = p.length := by
  induction l generalizing p with
  | nil => rfl
  | cons a l ih => simp [ih]

theorem getD_foldl_set_of_not_mem (g : Nat → K) (l : List Nat) (p : List K) (c : Nat)
    (hc : c ∉ l) : (l.foldl (fun q i => q.set i (g i)) p).getD c 0 = p.getD c 0 := by
  induction l generalizing p with
  | nil => rfl
  | cons a l ih =>
    have hne : a ≠ c := fun h => hc (by simp [h])
    have hmem : c ∉ l := fun h => hc (by simp [h])
    simp only [List.foldl_cons]
    rw [ih _ hmem]
    simp [List.getElem?_set_ne hne]

theorem getD_foldl_set_of_mem (g : Nat → K) (l : List Nat) (p : List K) (c : Nat)
    (hc : c ∈ l) (hlen : c < p.length) :
    (l.foldl (fun q i => q.set i (g i)) p).getD c 0 = g c := by
  induction l generalizing p with
  | nil => simp at hc
  | cons a l ih =>
    simp only [List.foldl_cons]
    by_cases hmem : c ∈ l
    · exact ih _ hmem (by simpa using hlen)
    · have hca : c = a := by
        rcases List.mem_cons.1 hc with h | h
        · exact h
        · exact absurd h hmem
      subst hca
      rw [getD_foldl_set_of_not_mem g l _ c hmem]
      simp [List.getElem?_set_self hlen]

/-! ### The scoring loop (lines 50-74) -/

theorem foldl_scoreBody (M : Model K) (src : List wid_t) (f_j : wid_t)
    (j trg_size src_size : Nat) (az : K) (l : List Nat) (s : Scores K) :
    (l.foldl (scoreBody M src f_j j trg_size src_size az) s).sum =
        s.sum + (l.map (bodyScore M src f_j j trg_size src_size az s.prob_a_i)).sum ∧
      (l.foldl (scoreBody M src f_j j trg_size src_size az) s).probs =
        l.foldl (fun q i => q.set i (bodyScore M src f_j j trg_size src_size az s.prob_a_i i))
          s.probs := by
  induction l generalizing s with
  | nil => simp
  | cons a l ih =>
    have hpa : bodyScore M src f_j j trg_size src_size az
          (scoreBody M src f_j j trg_size src_size az s a).prob_a_i =
        bodyScore M src f_j j trg_size src_size az s.prob_a_i := by
      funext i
      by_cases h : M.favor_diagonal = true <;> simp [bodyScore, scoreBody, h]
    obtain ⟨h1, h2⟩ := ih (scoreBody M src f_j j trg_size src_size az s a)
    simp only [List.foldl_cons, List.map_cons, List.sum_cons]
    rw [h1, h2, hpa]
    refine ⟨?_, ?_⟩
    · simp [scoreBody, bodyScore, add_assoc]
    · simp [scoreBody, bodyScore]

theorem bodyScore_eq_score (M : Model K) (src trg : List wid_t) (j : Nat) (probs : List K)
    (i : Nat) (hi : i ≠ 0) :
    bodyScore M src (trg.getD j 0) j trg.length src.length
        (computeAz M j trg.length src.length)
        (nullScore M (trg.getD j 0) src.length probs).prob_a_i i =
      score M src trg j i := by
  by_cases hd : M.favor_diagonal = true
  · simp [bodyScore, score, srcWeight, hd, hi]
  · by_cases hn : M.use_null = true <;>
      simp [bodyScore, score, srcWeight, nullScore, hd, hn, hi]

theorem fillScores_spec (M : Model K) (src trg : List wid_t) (j : Nat) (probs : List K)
    (hlen : probs.length = src.length + 1) :
    (fillScores M src (trg.getD j 0) j trg.length src.length probs).sum = normSum M src trg j ∧
      (∀ c ∈ candidates M src.length,
        (fillScores M src (trg.getD j 0) j trg.length src.length probs).probs.getD c 0 =
          score M src trg j c) ∧
      (fillScores M src (trg.getD j 0) j trg.length src.length probs).probs.length =
        src.length + 1 := by
  obtain ⟨h1, h2⟩ := foldl_scoreBody M src (trg.getD j 0) j trg.length src.length
    (computeAz M j trg.length src.length) (List.range' 1 src.length)
    (nullScore M (trg.getD j 0) src.length probs)
  have hmap : (List.range' 1 src.length).map
        (bodyScore M src (trg.getD j 0) j trg.length src.length
          (computeAz M j trg.length src.length)
          (nullScore M (trg.getD j 0) src.length probs).prob_a_i) =
      (List.range' 1 src.length).map (score M src trg j) := by
    apply List.map_congr_left
    intro i hi
    exact bodyScore_eq_score M src trg j probs i (by simp at hi; omega)
  have hlen0 : (nullScore M (trg.getD j 0) src.length probs).probs.length = src.length + 1 := by
    by_cases hn : M.use_null = true <;> simp [nullScore, hn, hlen]
  have h0 : M.use_null = true →
      (nullScore M (trg.getD j 0) src.length probs).probs.getD 0 0 = score M src trg j 0 ∧
      (nullScore M (trg.getD j 0) src.length probs).sum = score M src trg j 0 := by
    intro hn
    have hpos : 0 < probs.length := by omega
    by_cases hd : M.favor_diagonal = true <;>
      simp [nullScore, score, nullWeight, hn, hd, List.getElem?_set_self hpos]
  refine ⟨?_, ?_, ?_⟩
  · unfold fillScores
    rw [h1, hmap]
    by_cases hn : M.use_null = true
    · rw [(h0 hn).2]; simp [normSum, candidates, hn]
    · simp [normSum, candidates, nullScore, hn]
  · intro c hc
    unfold fillScores
    rw [h2]
    by_cases hc0 : c = 0
    · subst hc0
      have hn : M.use_null = true := by
        by_contra hn
        simp [candidates, hn] at hc
      rw [getD_foldl_set_of_not_mem _ _ _ 0 (by simp)]
      exact (h0 hn).1
    · have hmem : c ∈ List.range' 1 src.length := by
        by_cases hn : M.use_null = true <;> simp [candidates, hn, hc0] at hc <;>
          simp <;> omega
      rw [getD_foldl_set_of_mem _ _ _ c hmem (by simp at hmem; omega)]
      exact bodyScore_eq_score M src trg j probs c hc0
  · unfold fillScores
    rw [h2, length_foldl_set, hlen0]

theorem fillScores_sum (M : Model K) (src trg : List wid_t) (j : Nat) (probs : List K)
    (hlen : probs.length = src.length + 1) :
    (fillScores M src (trg.getD j 0) j trg.length src.length probs).sum =
      (scoresAt M src trg j).sum := by
  rw [(fillScores_spec M src trg j probs hlen).1]
  exact ((fillScores_spec M src trg j _ (by simp)).1).symm

theorem fillScores_getD (M : Model K) (src trg : List wid_t) (j : Nat) (probs : List K)
    (hlen : probs.length = src.length + 1) (c : Nat) (hc : c ∈ candidates M src.length) :
    (fillScores M src (trg.getD j 0) j trg.length src.length probs).probs.getD c 0 =
      (scoresAt M src trg j).probs.getD c 0 := by
  rw [(fillScores_spec M src trg j probs hlen).2.1 c hc]
  exact ((fillScores_spec M src trg j _ (by simp)).2.1 c hc).symm

theorem scoresAt_sum (M : Model K) (src trg : List wid_t) (j : Nat) :
    (scoresAt M src trg j).sum = normSum M src trg j :=
  (fillScores_spec M src trg j _ (by simp)).1

theorem scoresAt_getD (M : Model K) (src trg : List wid_t) (j c : Nat)
    (hc : c ∈ candidates M src.length) :
    (scoresAt M src trg j).probs.getD c 0 = score M src trg j c :=
  (fillScores_spec M src trg j _ (by simp)).2.1 c hc

theorem posterior_eq (M : Model K) (src trg : List wid_t) (j c : Nat)
    (hc : c ∈ candidates M src.length) :
    posterior M src trg j c = score M src trg j c / normSum M src trg j := by
  unfold posterior
  rw [scoresAt_getD M src trg j c hc, scoresAt_sum]

theorem mem_candidates (M : Model K) (m c : Nat) :
    c ∈ candidates M m ↔ (c = 0 ∧ M.use_null = true) ∨ (1 ≤ c ∧ c ≤ m) := by
  by_cases hn : M.use_null = true <;> simp [candidates, hn] <;> omega

/-! ### The counting loop (lines 77-91) -/

theorem foldl_countBody (M : Model K) (src : List wid_t) (f_j : wid_t)
    (j trg_size src_size : Nat) (outTable : Bool) (probs : List K) (sum : K) (l : List Nat)
    (c : K × List (wid_t × wid_t × K)) :
    l.foldl (countBody M src f_j j trg_size src_size outTable probs sum) c =
      (c.1 + (l.map (fun i =>
          M.diagonal.Feature j i trg_size src_size * (probs.getD i 0 / sum))).sum,
        c.2 ++ (if outTable then
          l.map (fun i => (src.getD (i - 1) 0, f_j, probs.getD i 0 / sum)) else [])) := by
  induction l generalizing c with
  | nil => simp
  | cons a l ih =>
    simp only [List.foldl_cons, List.map_cons, List.sum_cons]
    rw [ih]
    cases outTable <;> simp [countBody, add_assoc]

/-! ### The arg-max loop (lines 94-107) -/

theorem foldl_bestBody (probs : List K) (b0 : Best K) (k : Nat) :
    (∀ i : Nat, 1 ≤ i → i ≤ k →
        probs.getD i 0 ≤ ((List.range' 1 k).foldl (bestBody probs) b0).max_p) ∧
      b0.max_p ≤ ((List.range' 1 k).foldl (bestBody probs) b0).max_p ∧
      ((List.range' 1 k).foldl (bestBody probs) b0 = b0 ∨
        (1 ≤ ((List.range' 1 k).foldl (bestBody probs) b0).max_index ∧
          ((List.range' 1 k).foldl (bestBody probs) b0).max_index ≤ (k : Int) ∧
          ((List.range' 1 k).foldl (bestBody probs) b0).max_p =
            probs.getD ((List.range' 1 k).foldl (bestBody probs) b0).max_index.toNat 0 ∧
          b0.max_p < ((List.range' 1 k).foldl (bestBody probs) b0).max_p ∧
          ∀ i : Nat, 1 ≤ i → (i : Int) < ((List.range' 1 k).foldl (bestBody probs) b0).max_index →
            probs.getD i 0 < ((List.range' 1 k).foldl (bestBody probs) b0).max_p)) := by
  induction k with
  | zero =>
    refine ⟨?_, ?_, ?_⟩
    · intro i h1 h2; omega
    · simp
    · left; simp
  | succ k ih =>
    rw [List.range'_1_concat, List.foldl_append]
    generalize (List.range' 1 k).foldl (bestBody probs) b0 = b at ih ⊢
    obtain ⟨hA, hB, hC⟩ := ih
    simp only [List.foldl_cons, List.foldl_nil]
    by_cases hgt : probs.getD (1 + k) 0 > b.max_p
    · have hb : bestBody probs b (1 + k) =
          { max_p := probs.getD (1 + k) 0, max_index := ((1 + k : Nat) : Int) } := by
        unfold bestBody
        rw [if_pos hgt]
      rw [hb]
      refine ⟨?_, ?_, ?_⟩
      · intro i h1 h2
        by_cases hik : i ≤ k
        · exact le_of_lt (lt_of_le_of_lt (hA i h1 hik) hgt)
        · have : i = 1 + k := by omega
          subst this
          exact le_refl _
      · exact le_of_lt (lt_of_le_of_lt hB hgt)
      · right
        refine ⟨?_, ?_, ?_, ?_, ?_⟩
        · show (1 : Int) ≤ ((1 + k : Nat) : Int)
          omega
        · show ((1 + k : Nat) : Int) ≤ ((k + 1 : Nat) : Int)
          omega
        · show probs.getD (1 + k) 0 = probs.getD (((1 + k : Nat) : Int)).toNat 0
          rw [Int.toNat_ofNat]
        · exact lt_of_le_of_lt hB hgt
        · intro i h1 h2
          have h3 : (i : Int) < ((1 + k : Nat) : Int) := h2
          have hik : i ≤ k := by omega
          exact lt_of_le_of_lt (hA i h1 hik) hgt
    · have hb : bestBody probs b (1 + k) = b := by
        unfold bestBody
        rw [if_neg hgt]
      rw [hb]
      refine ⟨?_, hB, ?_⟩
      · intro i h1 h2
        by_cases hik : i ≤ k
        · exact hA i h1 hik
        · have : i = 1 + k := by omega
          subst this
          exact not_lt.1 hgt
      · rcases hC with hC | ⟨h1, h2, h3, h4, h5⟩
        · exact Or.inl hC
        · refine Or.inr ⟨h1, ?_, h3, h4, h5⟩
          have : ((k + 1 : Nat) : Int) = (k : Int) + 1 := by push_cast; ring
          omega

theorem bestLoop_congr (M : Model K) (m : Nat) (p q : List K)
    (h : ∀ c ∈ candidates M m, p.getD c 0 = q.getD c 0) :
    bestLoop M m p = bestLoop M m q := by
  have hinit : bestInit M p = bestInit M q := by
    by_cases hn : M.use_null = true
    · have h0 := h 0 ((mem_candidates M m 0).2 (Or.inl ⟨rfl, hn⟩))
      simp only [bestInit, hn, if_true, h0]
    · simp [bestInit, hn]
  unfold bestLoop
  rw [hinit]
  apply List.foldl_ext
  intro b i hi
  have hi2 : i ∈ candidates M m := by
    rw [mem_candidates]; right; simp at hi; omega
  simp only [bestBody, h i hi2]

theorem pushLink_eq_append (M : Model K) (j : Nat) (idx : Int) (a : alignment_t) :
    pushLink M j idx a = a ++ pushLink M j idx [] := by
  unfold pushLink
  by_cases h : idx > 0 <;> by_cases hr : M.is_reverse = true <;> simp [h, hr]

/-! ### One target position, and the whole loop -/

theorem targetStep_eq (M : Model K) (src trg : List wid_t) (outTable : Bool) (s : State K)
    (j : Nat) (hlen : s.probs.length = src.length + 1) :
    targetStep M src trg src.length trg.length outTable s j =
      { emp_feat := s.emp_feat + featureTerm M src trg j
        probs := (fillScores M src (trg.getD j 0) j trg.length src.length s.probs).probs
        increments := s.increments ++ (if outTable then incrementsAt M src trg j else [])
        alignment := s.alignment.map (fun a => a ++ linkAt M src trg j) } := by
  have hsum := fillScores_sum M src trg j s.probs hlen
  have hget := fillScores_getD M src trg j s.probs hlen
  have hfeat : (List.range' 1 src.length).map (fun i =>
        M.diagonal.Feature j i trg.length src.length *
          ((fillScores M src (trg.getD j 0) j trg.length src.length s.probs).probs.getD i 0 /
            (scoresAt M src trg j).sum)) =
      (List.range' 1 src.length).map
        (fun i => M.diagonal.Feature j i trg.length src.length * posterior M src trg j i) := by
    apply List.map_congr_left
    intro i hi
    have hi2 : i ∈ candidates M src.length := by
      rw [mem_candidates]; right; simp at hi; omega
    rw [hget i hi2]; rfl
  have hinc : (List.range' 1 src.length).map (fun i =>
        (src.getD (i - 1) 0, trg.getD j 0,
          (fillScores M src (trg.getD j 0) j trg.length src.length s.probs).probs.getD i 0 /
            (scoresAt M src trg j).sum)) =
      (List.range' 1 src.length).map
        (fun c => (candidateToken M src c, trg.getD j 0, posterior M src trg j c)) := by
    apply List.map_congr_left
    intro i hi
    have hi1 : i ≠ 0 := by simp at hi; omega
    have hi2 : i ∈ candidates M src.length := by
      rw [mem_candidates]; right; simp at hi; omega
    rw [hget i hi2]
    simp [candidateToken, hi1, posterior]
  have hbest : bestLoop M src.length
        (fillScores M src (trg.getD j 0) j trg.length src.length s.probs).probs =
      bestLoop M src.length (scoresAt M src trg j).probs :=
    bestLoop_congr M src.length _ _ hget
  unfold targetStep
  simp only [foldl_countBody, hsum, hfeat, hinc, hbest]
  have halign : (match s.alignment with
      | some a => some (pushLink M j (bestLoop M src.length (scoresAt M src trg j).probs).max_index a)
      | none => none) = s.alignment.map (fun a => a ++ linkAt M src trg j) := by
    cases s.alignment with
    | none => rfl
    | some a =>
      simp only [Option.map_some']
      rw [pushLink_eq_append]
      rfl
  rw [halign]
  have hincs : nullCount M (trg.getD j 0) outTable
        (fillScores M src (trg.getD j 0) j trg.length src.length s.probs).probs
        (scoresAt M src trg j).sum s.increments ++
        (if outTable = true then (List.range' 1 src.length).map
          (fun c => (candidateToken M src c, trg.getD j 0, posterior M src trg j c)) else []) =
      s.increments ++ (if outTable = true then incrementsAt M src trg j else []) := by
    cases outTable
    · by_cases hn : M.use_null = true <;> simp [nullCount, hn]
    · by_cases hn : M.use_null = true
      · have h0 := hget 0 ((mem_candidates M src.length 0).2 (Or.inl ⟨rfl, hn⟩))
        simp only [nullCount, hn, if_true, h0, incrementsAt, candidates, List.map_append,
          List.map_cons, List.map_nil, List.append_assoc]
        simp [candidateToken, posterior]
      · simp [nullCount, hn, incrementsAt, candidates]
  rw [hincs]
  rfl

theorem run_spec (M : Model K) (src trg : List wid_t) (outTable : Bool)
    (outAlignment : Option alignment_t) (k : Nat) :
    ((List.range k).foldl (targetStep M src trg src.length trg.length outTable)
        { emp_feat := 0, probs := List.replicate (src.length + 1) 0, increments := [],
          alignment := outAlignment }).emp_feat =
        ((List.range k).map (featureTerm M src trg)).sum ∧
      ((List.range k).foldl (targetStep M src trg src.length trg.length outTable)
        { emp_feat := 0, probs := List.replicate (src.length + 1) 0, increments := [],
          alignment := outAlignment }).increments =
        (if outTable then (List.range k).flatMap (incrementsAt M src trg) else []) ∧
      ((List.range k).foldl (targetStep M src trg src.length trg.length outTable)
        { emp_feat := 0, probs := List.replicate (src.length + 1) 0, increments := [],
          alignment := outAlignment }).alignment =
        outAlignment.map (fun a => a ++ (List.range k).flatMap (linkAt M src trg)) ∧
      ((List.range k).foldl (targetStep M src trg src.length trg.length outTable)
        { emp_feat := 0, probs := List.replicate (src.length + 1) 0, increments := [],
          alignment := outAlignment }).probs.length = src.length + 1 := by
  induction k with
  | zero =>
    refine ⟨by simp, by simp, ?_, by simp⟩
    cases outAlignment <;> simp
  | succ k ih =>
    rw [List.range_succ, List.foldl_append]
    generalize (List.range k).foldl (targetStep M src trg src.length trg.length outTable)
        { emp_feat := 0, probs := List.replicate (src.length + 1) 0, increments := [],
          alignment := outAlignment } = s at ih ⊢
    obtain ⟨h1, h2, h3, h4⟩ := ih
    simp only [List.foldl_cons, List.foldl_nil]
    rw [targetStep_eq M src trg outTable s k h4]
    refine ⟨?_, ?_, ?_, ?_⟩
    · simp [h1]
    · cases outTable <;> simp [h2]
    · cases outAlignment <;> simp [h3]
    · exact (fillScores_spec M src trg k s.probs h4).2.2

/-- The outcome of the loop in closed form. -/
theorem scorePair_eq (M : Model K) (src trg : List wid_t) (outTable : Bool)
    (outAlignment : Option alignment_t) :
    scorePair M src trg outTable outAlignment =
      { emp_feat := ((List.range trg.length).map (featureTerm M src trg)).sum
        increments :=
          if outTable then (List.range trg.length).flatMap (incrementsAt M src trg) else []
        alignment :=
          outAlignment.map (fun a => a ++ (List.range trg.length).flatMap (linkAt M src trg)) } := by
  obtain ⟨h1, h2, h3, _⟩ := run_spec M src trg outTable outAlignment trg.length
  unfold scorePair
  simp only [h1, h2, h3]

/-! ### Sums over lists -/

theorem sum_map_div (l : List Nat) (f : Nat → K) (d : K) :
    (l.map (fun c => f c / d)).sum = (l.map f).sum / d := by
  induction l with
  | nil => simp
  | cons a l ih => simp [ih, add_div]

theorem sum_map_filter (l : List Nat) (p : Nat → Bool) (f : Nat → K) :
    ((l.filter p).map f).sum = (l.map (fun x => if p x then f x else 0)).sum := by
  induction l with
  | nil => simp
  | cons a l ih =>
    by_cases h : p a = true <;> simp [List.filter_cons, h, ih]

theorem sum_pos_of_nonneg_of_exists (l : List K) (h0 : ∀ x ∈ l, 0 ≤ x)
    (h1 : ∃ x ∈ l, 0 < x) : 0 < l.sum := by
  induction l with
  | nil => simp at h1
  | cons a l ih =>
    have ha : 0 ≤ a := h0 a (by simp)
    have hl : 0 ≤ l.sum := List.sum_nonneg (fun x hx => h0 x (by simp [hx]))
    rw [List.sum_cons]
    obtain ⟨x, hx, hpos⟩ := h1
    rcases List.mem_cons.1 hx with h | h
    · subst h
      exact add_pos_of_pos_of_nonneg hpos hl
    · exact add_pos_of_nonneg_of_pos ha
        (ih (fun y hy => h0 y (by simp [hy])) ⟨x, h, hpos⟩)

theorem sum_nonpos_of_forall (l : List K) (h0 : ∀ x ∈ l, x ≤ 0) : l.sum ≤ 0 := by
  induction l with
  | nil => simp
  | cons a l ih =>
    rw [List.sum_cons]
    exact add_nonpos (h0 a (by simp)) (ih (fun y hy => h0 y (by simp [hy])))

theorem amountsAt_eq (M : Model K) (src trg : List wid_t) (j : Nat) (probs : List K)
    (hlen : probs.length = src.length + 1) :
    amountsAt M src trg j probs = (candidates M src.length).map (posterior M src trg j) := by
  unfold amountsAt
  rw [targetStep_eq M src trg true _ j hlen]
  simp [incrementsAt, Function.comp_def]

theorem sum_posterior (M : Model K) (src trg : List wid_t) (j : Nat)
    (h : (scoresAt M src trg j).sum ≠ 0) :
    ((candidates M src.length).map (posterior M src trg j)).sum = 1 := by
  have hmap : (candidates M src.length).map (posterior M src trg j) =
      (candidates M src.length).map (fun c => score M src trg j c / normSum M src trg j) :=
    List.map_congr_left (fun c hc => posterior_eq M src trg j c hc)
  rw [hmap, sum_map_div]
  rw [scoresAt_sum] at h
  exact div_self h

/-! ### Additive tables -/

theorem applyIncrements_apply (T : wid_t → wid_t → K) (l : List (wid_t × wid_t × K))
    (e f : wid_t) :
    applyIncrements T l e f =
      T e f + ((l.filter (fun t => decide (t.1 = e ∧ t.2.1 = f))).map (fun t => t.2.2)).sum := by
  induction l generalizing T with
  | nil => simp [applyIncrements]
  | cons a l ih =>
    have hstep : applyIncrements T (a :: l) =
        applyIncrements (increment T a.1 a.2.1 a.2.2) l := rfl
    rw [hstep, ih]
    obtain ⟨x, y, v⟩ := a
    by_cases h : x = e ∧ y = f
    · obtain ⟨hx, hy⟩ := h
      subst hx hy
      simp [increment, List.filter_cons, add_assoc]
    · have h2 : ¬ (e = x ∧ f = y) := fun h3 => h ⟨h3.1.symm, h3.2.symm⟩
      simp [increment, List.filter_cons, h, h2]

theorem sum_filter_flatMap (L : List Nat) (g : Nat → List (wid_t × wid_t × K))
    (p : wid_t × wid_t × K → Bool) :
    (((L.flatMap g).filter p).map (fun t => t.2.2)).sum =
      (L.map (fun j => (((g j).filter p).map (fun t => t.2.2)).sum)).sum := by
  induction L with
  | nil => simp
  | cons a L ih => simp [List.flatMap_cons, List.filter_append, ih]

theorem sum_filter_incrementsAt (M : Model K) (src trg : List wid_t) (j : Nat) (e f : wid_t) :
    (((incrementsAt M src trg j).filter (fun t => decide (t.1 = e ∧ t.2.1 = f))).map
        (fun t => t.2.2)).sum =
      if trg.getD j 0 = f then
        (((candidates M src.length).filter (fun c => decide (candidateToken M src c = e))).map
          (posterior M src trg j)).sum
      else 0 := by
  unfold incrementsAt
  rw [List.filter_map, List.map_map]
  by_cases h : trg.getD j 0 = f
  · rw [if_pos h]
    congr 1
    have hfun : ((fun t : wid_t × wid_t × K => decide (t.1 = e ∧ t.2.1 = f)) ∘
        fun c => (candidateToken M src c, trg.getD j 0, posterior M src trg j c)) =
        fun c => decide (candidateToken M src c = e) := by
      funext c
      simp only [List.getD_eq_getElem?_getD] at h ⊢
      simp [h]
    rw [hfun]
    rfl
  · rw [if_neg h]
    have hfun : ((fun t : wid_t × wid_t × K => decide (t.1 = e ∧ t.2.1 = f)) ∘
        fun c => (candidateToken M src c, trg.getD j 0, posterior M src trg j c)) =
        fun _ => false := by
      funext c
      simp only [List.getD_eq_getElem?_getD] at h ⊢
      simp [h]
    rw [hfun]
    simp

/-! ### The selected candidate -/

theorem bestInit_max_index_le (M : Model K) (probs : List K) :
    (bestInit M probs).max_index ≤ 0 := by
  by_cases hn : M.use_null = true <;> simp [bestInit, hn]

theorem bestLoop_max_index_le (M : Model K) (m : Nat) (probs : List K) :
    (bestLoop M m probs).max_index ≤ (m : Int) := by
  obtain ⟨_, _, hC⟩ := foldl_bestBody probs (bestInit M probs) m
  unfold bestLoop
  rcases hC with hC | ⟨_, h2, _⟩
  · rw [hC]
    have := bestInit_max_index_le M probs
    omega
  · exact h2

theorem bestLoop_spec (M : Model K) (m : Nat) (probs : List K)
    (hpos : M.use_null = false → ∃ i, 1 ≤ i ∧ i ≤ m ∧ -1 < probs.getD i 0) :
    0 ≤ (bestLoop M m probs).max_index ∧
      (bestLoop M m probs).max_index.toNat ∈ candidates M m ∧
      (∀ c ∈ candidates M m,
        probs.getD c 0 ≤ probs.getD (bestLoop M m probs).max_index.toNat 0) ∧
      (∀ c ∈ candidates M m, (c : Int) < (bestLoop M m probs).max_index →
        probs.getD c 0 < probs.getD (bestLoop M m probs).max_index.toNat 0) := by
  obtain ⟨hA, hB, hC⟩ := foldl_bestBody probs (bestInit M probs) m
  unfold bestLoop
  generalize (List.range' 1 m).foldl (bestBody probs) (bestInit M probs) = b at hA hB hC ⊢
  by_cases hn : M.use_null = true
  · have hinit : bestInit M probs = { max_p := probs.getD 0 0, max_index := 0 } := by
      simp [bestInit, hn]
    rw [hinit] at hB hC
    rcases hC with hC | ⟨h1, h2, h3, h4, h5⟩
    · subst hC
      refine ⟨le_refl _, ?_, ?_, ?_⟩
      · exact (mem_candidates M m 0).2 (Or.inl ⟨rfl, hn⟩)
      · intro c hc
        rcases (mem_candidates M m c).1 hc with ⟨h0, _⟩ | ⟨hc1, hc2⟩
        · subst h0; exact le_refl _
        · exact hA c hc1 hc2
      · intro c _ hlt
        have h0 : (c : Int) < 0 := hlt
        omega
    · have hnat : ((b.max_index.toNat : Nat) : Int) = b.max_index :=
        Int.toNat_of_nonneg (by omega)
      refine ⟨by omega, ?_, ?_, ?_⟩
      · exact (mem_candidates M m _).2 (Or.inr ⟨by omega, by omega⟩)
      · intro c hc
        rw [← h3]
        rcases (mem_candidates M m c).1 hc with ⟨h0, _⟩ | ⟨hc1, hc2⟩
        · subst h0; exact le_of_lt h4
        · exact hA c hc1 hc2
      · intro c hc hlt
        rw [← h3]
        rcases (mem_candidates M m c).1 hc with ⟨h0, _⟩ | ⟨hc1, _⟩
        · subst h0; exact h4
        · exact h5 c hc1 hlt
  · have hinit : bestInit M probs = { max_p := -1, max_index := -1 } := by
      simp [bestInit, hn]
    rw [hinit] at hB hC
    rcases hC with hC | ⟨h1, h2, h3, h4, h5⟩
    · subst hC
      obtain ⟨i, hi1, hi2, hi3⟩ := hpos (by simpa using hn)
      exact absurd (hA i hi1 hi2) (not_le.2 hi3)
    · have hnat : ((b.max_index.toNat : Nat) : Int) = b.max_index :=
        Int.toNat_of_nonneg (by omega)
      refine ⟨by omega, ?_, ?_, ?_⟩
      · exact (mem_candidates M m _).2 (Or.inr ⟨by omega, by omega⟩)
      · intro c hc
        rw [← h3]
        rcases (mem_candidates M m c).1 hc with ⟨_, h0⟩ | ⟨hc1, hc2⟩
        · exact absurd h0 hn
        · exact hA c hc1 hc2
      · intro c hc hlt
        rw [← h3]
        rcases (mem_candidates M m c).1 hc with ⟨_, h0⟩ | ⟨hc1, _⟩
        · exact absurd h0 hn
        · exact h5 c hc1 hlt

theorem exists_score_of_sum_pos (M : Model K) (src trg : List wid_t) (j : Nat)
    (hsum : 0 < (scoresAt M src trg j).sum) (hn : M.use_null = false) :
    ∃ i, 1 ≤ i ∧ i ≤ src.length ∧ -1 < (scoresAt M src trg j).probs.getD i 0 := by
  by_contra hex
  have hall : ∀ x ∈ (candidates M src.length).map (score M src trg j), x ≤ 0 := by
    intro x hx
    obtain ⟨c, hc, rfl⟩ := List.mem_map.1 hx
    rw [← scoresAt_getD M src trg j c hc]
    rcases (mem_candidates M src.length c).1 hc with ⟨_, h0⟩ | ⟨hc1, hc2⟩
    · rw [hn] at h0; exact absurd h0 (by simp)
    · by_contra hgt
      exact hex ⟨c, hc1, hc2, lt_trans (by norm_num) (not_le.1 hgt)⟩
  have := sum_nonpos_of_forall _ hall
  rw [scoresAt_sum] at hsum
  exact absurd hsum (not_lt.2 this)

theorem selected_spec (M : Model K) (src trg : List wid_t) (j : Nat)
    (hsum : 0 < (scoresAt M src trg j).sum) :
    0 ≤ selected M src trg j ∧
      (selected M src trg j).toNat ∈ candidates M src.length ∧
      (∀ c ∈ candidates M src.length,
        (scoresAt M src trg j).probs.getD c 0 ≤
          (scoresAt M src trg j).probs.getD (selected M src trg j).toNat 0) ∧
      (∀ c ∈ candidates M src.length, (c : Int) < selected M src trg j →
        (scoresAt M src trg j).probs.getD c 0 <
          (scoresAt M src trg j).probs.getD (selected M src trg j).toNat 0) :=
  bestLoop_spec M src.length (scoresAt M src trg j).probs
    (exists_score_of_sum_pos M src trg j hsum)

theorem linkAt_eq (M : Model K) (src trg : List wid_t) (j : Nat) :
    linkAt M src trg j =
      if 0 < selected M src trg j then
        [if M.is_reverse then (j, (selected M src trg j - 1).toNat)
          else ((selected M src trg j - 1).toNat, j)]
      else [] := by
  unfold linkAt pushLink
  by_cases h : selected M src trg j > 0 <;> by_cases hr : M.is_reverse = true <;> simp [h, hr]

theorem alignment_eq (M : Model K) (source target : List wid_t) (outTable : Bool)
    (a : alignment_t) :
    (ComputeAlignment M source target outTable (some a)).alignment =
      some (a ++ (List.range (scoringTrg M source target).length).flatMap
        (linkAt M (scoringSrc M source target) (scoringTrg M source target))) := by
  unfold ComputeAlignment
  rw [scorePair_eq]
  rfl

/-! ### Orientation -/

theorem scoresAt_is_reverse (M : Model K) (b : Bool) (src trg : List wid_t) (j : Nat) :
    scoresAt { M with is_reverse := b } src trg j = scoresAt M src trg j := rfl

theorem selected_is_reverse (M : Model K) (b : Bool) (src trg : List wid_t) (j : Nat) :
    selected { M with is_reverse := b } src trg j = selected M src trg j := rfl

theorem featureTerm_is_reverse (M : Model K) (b : Bool) (src trg : List wid_t) (j : Nat) :
    featureTerm { M with is_reverse := b } src trg j = featureTerm M src trg j := rfl

theorem incrementsAt_is_reverse (M : Model K) (b : Bool) (src trg : List wid_t) (j : Nat) :
    incrementsAt { M with is_reverse := b } src trg j = incrementsAt M src trg j := rfl

theorem linkAt_transpose (M : Model K) (src trg : List wid_t) (j : Nat) :
    linkAt { M with is_reverse := true } src trg j =
      (linkAt { M with is_reverse := false } src trg j).map Prod.swap := by
  have h1 : selected { M with is_reverse := true } src trg j = selected M src trg j := rfl
  have h2 : selected { M with is_reverse := false } src trg j = selected M src trg j := rfl
  rw [linkAt_eq, linkAt_eq, h1, h2]
  by_cases h : 0 < selected M src trg j <;> simp [h]

theorem selected_le (M : Model K) (src trg : List wid_t) (j : Nat) :
    selected M src trg j ≤ (src.length : Int) :=
  bestLoop_max_index_le M src.length _

theorem mem_alignment (M : Model K) (source target : List wid_t) (outTable : Bool)
    (l : Nat × Nat)
    (h : l ∈ ((ComputeAlignment M source target outTable (some [])).alignment).getD []) :
    ∃ j, j < (scoringTrg M source target).length ∧
      0 < selected M (scoringSrc M source target) (scoringTrg M source target) j ∧
      l = if M.is_reverse then
          (j, (selected M (scoringSrc M source target) (scoringTrg M source target) j - 1).toNat)
        else
          ((selected M (scoringSrc M source target) (scoringTrg M source target) j - 1).toNat,
            j) := by
  rw [alignment_eq] at h
  simp only [Option.getD_some, List.nil_append, List.mem_flatMap, List.mem_range] at h
  obtain ⟨j, hj, hmem⟩ := h
  rw [linkAt_eq] at hmem
  by_cases hsel : 0 < selected M (scoringSrc M source target) (scoringTrg M source target) j
  · rw [if_pos hsel] at hmem
    exact ⟨j, hj, hsel, List.mem_singleton.1 hmem⟩
  · rw [if_neg hsel] at hmem
    simp at hmem

/-! ### Positivity of the weights -/

theorem cast_candidates_pos (M : Model K) (m : Nat) (h : 1 ≤ m ∨ M.use_null = true) :
    (0 : K) < ((m + (if M.use_null then 1 else 0) : Nat) : K) := by
  apply Nat.cast_pos.2
  rcases h with h | h
  · omega
  · simp [h]

theorem srcWeight_pos (M : Model K) (j n m i : Nat) (hm : 1 ≤ m)
    (hp : M.favor_diagonal = true → M.prob_align_null < 1)
    (hZ : M.favor_diagonal = true → 0 < M.diagonal.ComputeZ (j + 1) n m M.diagonal_tension)
    (hU : M.favor_diagonal = true →
      0 < M.diagonal.UnnormalizedProb (j + 1) i n m M.diagonal_tension) :
    0 < srcWeight M j n m i := by
  unfold srcWeight
  by_cases hd : M.favor_diagonal = true
  · rw [if_pos hd]
    have haz : 0 < computeAz M j n m := by
      unfold computeAz
      rw [if_pos hd]
      exact div_pos (hZ hd) (by linarith [hp hd])
    exact div_pos (hU hd) haz
  · rw [if_neg hd]
    exact div_pos one_pos (cast_candidates_pos M m (Or.inl hm))

theorem nullWeight_nonneg (M : Model K) (m : Nat) (hn : M.use_null = true)
    (hp : M.favor_diagonal = true → 0 ≤ M.prob_align_null) : 0 ≤ nullWeight M m := by
  unfold nullWeight
  by_cases hd : M.favor_diagonal = true
  · rw [if_pos hd]; exact hp hd
  · rw [if_neg hd]
    exact le_of_lt (div_pos one_pos (cast_candidates_pos M m (Or.inr hn)))

theorem nullWeight_pos (M : Model K) (m : Nat) (hn : M.use_null = true)
    (hp : M.favor_diagonal = true → 0 < M.prob_align_null) : 0 < nullWeight M m := by
  unfold nullWeight
  by_cases hd : M.favor_diagonal = true
  · rw [if_pos hd]; exact hp hd
  · rw [if_neg hd]
    exact div_pos one_pos (cast_candidates_pos M m (Or.inr hn))

theorem normSum_pos (M : Model K) (src trg : List wid_t) (j : Nat)
    (htab : ∀ e f, 0 < M.GetProbability e f)
    (hnull : M.favor_diagonal = true →
      M.prob_align_null < 1 ∧ (M.use_null = true → 0 ≤ M.prob_align_null))
    (hZ : M.favor_diagonal = true →
      0 < M.diagonal.ComputeZ (j + 1) trg.length src.length M.diagonal_tension)
    (hU : M.favor_diagonal = true → ∀ i, 1 ≤ i → i ≤ src.length →
      0 < M.diagonal.UnnormalizedProb (j + 1) i trg.length src.length M.diagonal_tension)
    (hcand : 1 ≤ src.length ∨
      (M.use_null = true ∧ (M.favor_diagonal = true → 0 < M.prob_align_null))) :
    0 < normSum M src trg j := by
  have hsrc : ∀ c, 1 ≤ c → c ≤ src.length → 0 < score M src trg j c := by
    intro c hc1 hc2
    have hc0 : c ≠ 0 := by omega
    unfold score
    rw [if_neg hc0]
    exact mul_pos (htab _ _)
      (srcWeight_pos M j trg.length src.length c (by omega) (fun hd => (hnull hd).1) hZ
        (fun hd => hU hd c hc1 hc2))
  have hzero : M.use_null = true → 0 ≤ score M src trg j 0 := by
    intro hn
    unfold score
    rw [if_pos rfl]
    exact mul_nonneg (le_of_lt (htab _ _))
      (nullWeight_nonneg M src.length hn (fun hd => (hnull hd).2 hn))
  unfold normSum
  apply sum_pos_of_nonneg_of_exists
  · intro x hx
    obtain ⟨c, hc, rfl⟩ := List.mem_map.1 hx
    rcases (mem_candidates M src.length c).1 hc with ⟨h0, hn⟩ | ⟨hc1, hc2⟩
    · subst h0; exact hzero hn
    · exact le_of_lt (hsrc c hc1 hc2)
  · rcases hcand with hm | ⟨hn, hp⟩
    · refine ⟨score M src trg j 1, List.mem_map.2 ⟨1, ?_, rfl⟩, hsrc 1 (le_refl _) hm⟩
      exact (mem_candidates M src.length 1).2 (Or.inr ⟨le_refl _, hm⟩)
    · refine ⟨score M src trg j 0, List.mem_map.2 ⟨0, ?_, rfl⟩, ?_⟩
      · exact (mem_candidates M src.length 0).2 (Or.inl ⟨rfl, hn⟩)
      · unfold score
        rw [if_pos rfl]
        exact mul_pos (htab _ _) (nullWeight_pos M src.length hn hp)

/-! ### Scored positions in the links -/

theorem flatMap_ite_singleton (l : List Nat) (p : Nat → Prop) [DecidablePred p] :
    l.flatMap (fun j => if p j then [j] else []) = l.filter (fun j => decide (p j)) := by
  induction l with
  | nil => rfl
  | cons a l ih =>
    by_cases h : p a <;> simp [List.flatMap_cons, List.filter_cons, h, ih]

/-! ### The outcome of `ComputeAlignment` -/

theorem emittedLinks_eq (M : Model K) (source target : List wid_t) :
    emittedLinks M source target =
      (List.range (scoringTrg M source target).length).flatMap
        (linkAt M (scoringSrc M source target) (scoringTrg M source target)) := by
  unfold emittedLinks
  rw [alignment_eq]
  simp

theorem ComputeAlignment_eq (M : Model K) (source target : List wid_t) (outTable : Bool)
    (outAlignment : Option alignment_t) :
    ComputeAlignment M source target outTable outAlignment =
      { emp_feat := ((List.range (scoringTrg M source target).length).map
          (featureTerm M (scoringSrc M source target) (scoringTrg M source target))).sum
        increments :=
          if outTable then
            (List.range (scoringTrg M source target).length).flatMap
              (incrementsAt M (scoringSrc M source target) (scoringTrg M source target))
          else []
        alignment := outAlignment.map (fun a => a ++ emittedLinks M source target) } := by
  unfold ComputeAlignment
  rw [scorePair_eq, emittedLinks_eq]

/-! ### An empty source -/

theorem featureTerm_nil (M : Model K) (trg : List wid_t) (j : Nat) :
    featureTerm M [] trg j = 0 := by
  simp [featureTerm]

theorem linkAt_nil (M : Model K) (trg : List wid_t) (j : Nat) : linkAt M [] trg j = [] := by
  rw [linkAt_eq]
  have h := selected_le M [] trg j
  have h0 : ¬ 0 < selected M [] trg j := by
    simp only [List.length_nil, Nat.cast_zero] at h
    omega
  rw [if_neg h0]

theorem incrementsAt_nil (M : Model K) (trg : List wid_t) (j : Nat) :
    incrementsAt M [] trg j =
      if M.use_null then [(M.kAlignerNullWord, trg.getD j 0, posterior M [] trg j 0)]
      else [] := by
  by_cases hn : M.use_null = true <;> simp [incrementsAt, candidates, candidateToken, hn]

/-! ### Without the diagonal prior -/

theorem score_uniform (M : Model K) (src trg : List wid_t) (j c : Nat)
    (hd : M.favor_diagonal = false) :
    score M src trg j c =
      candidateProb M src trg j c *
        (1 / ((src.length + (if M.use_null then 1 else 0) : Nat) : K)) := by
  by_cases hc : c = 0 <;>
    simp [score, nullWeight, srcWeight, candidateProb, candidateToken, hd, hc]

theorem sum_map_mul_const (l : List Nat) (f : Nat → K) (w : K) :
    (l.map (fun c => f c * w)).sum = (l.map f).sum * w := by
  induction l with
  | nil => simp
  | cons a l ih => simp [ih, add_mul]

theorem posterior_uniform (M : Model K) (src trg : List wid_t) (j c : Nat)
    (hd : M.favor_diagonal = false) (hc : c ∈ candidates M src.length) :
    posterior M src trg j c =
      candidateProb M src trg j c /
        ((candidates M src.length).map (candidateProb M src trg j)).sum := by
  have hw : (1 / ((src.length + (if M.use_null then 1 else 0) : Nat) : K)) ≠ 0 := by
    apply ne_of_gt
    apply div_pos one_pos
    apply cast_candidates_pos
    rcases (mem_candidates M src.length c).1 hc with ⟨_, hn⟩ | ⟨h1, h2⟩
    · exact Or.inr hn
    · exact Or.inl (by omega)
  rw [posterior_eq M src trg j c hc]
  unfold normSum
  have hmap : (candidates M src.length).map (score M src trg j) =
      (candidates M src.length).map (fun c => candidateProb M src trg j c *
        (1 / ((src.length + (if M.use_null then 1 else 0) : Nat) : K))) :=
    List.map_congr_left (fun c _ => score_uniform M src trg j c hd)
  rw [hmap, sum_map_mul_const, score_uniform M src trg j c hd]
  exact mul_div_mul_right _ _ hw

/-! ### Bounds on the amounts -/

theorem le_sum_of_mem_of_nonneg (l : List K) (h0 : ∀ x ∈ l, 0 ≤ x) (x : K) (hx : x ∈ l) :
    x ≤ l.sum := by
  induction l with
  | nil => simp at hx
  | cons a l ih =>
    have ha : 0 ≤ a := h0 a (by simp)
    have hl : 0 ≤ l.sum := List.sum_nonneg (fun y hy => h0 y (by simp [hy]))
    rw [List.sum_cons]
    rcases List.mem_cons.1 hx with h | h
    · subst h
      exact le_add_of_nonneg_right hl
    · exact le_trans (ih (fun y hy => h0 y (by simp [hy])) h) (le_add_of_nonneg_left ha)

theorem score_nonneg (M : Model K) (src trg : List wid_t) (j c : Nat)
    (hc : c ∈ candidates M src.length)
    (htab : ∀ e f, 0 ≤ M.GetProbability e f)
    (hp0 : M.favor_diagonal = true → M.use_null = true → 0 ≤ M.prob_align_null)
    (hp1 : M.favor_diagonal = true → M.prob_align_null < 1)
    (hZ : M.favor_diagonal = true →
      0 < M.diagonal.ComputeZ (j + 1) trg.length src.length M.diagonal_tension)
    (hU : M.favor_diagonal = true → ∀ i, 1 ≤ i → i ≤ src.length →
      0 ≤ M.diagonal.UnnormalizedProb (j + 1) i trg.length src.length M.diagonal_tension) :
    0 ≤ score M src trg j c := by
  unfold score
  rcases (mem_candidates M src.length c).1 hc with ⟨h0, hn⟩ | ⟨h1, h2⟩
  · rw [if_pos h0]
    exact mul_nonneg (htab _ _) (nullWeight_nonneg M src.length hn (fun hd => hp0 hd hn))
  · have hc0 : c ≠ 0 := by omega
    rw [if_neg hc0]
    apply mul_nonneg (htab _ _)
    unfold srcWeight
    by_cases hd : M.favor_diagonal = true
    · rw [if_pos hd]
      have haz : 0 < computeAz M j trg.length src.length := by
        unfold computeAz
        rw [if_pos hd]
        exact div_pos (hZ hd) (by linarith [hp1 hd])
      exact div_nonneg (hU hd c h1 h2) (le_of_lt haz)
    · rw [if_neg hd]
      exact div_nonneg zero_le_one (Nat.cast_nonneg _)

/-! ### Rescaling the scores -/

theorem ComputeAlignment_congr (M N : Model K) (source target : List wid_t) (outTable : Bool)
    (outAlignment : Option alignment_t) (hrev : N.is_reverse = M.is_reverse)
    (hfeat : ∀ j, j < (scoringTrg M source target).length →
      featureTerm N (scoringSrc M source target) (scoringTrg M source target) j =
        featureTerm M (scoringSrc M source target) (scoringTrg M source target) j)
    (hinc : ∀ j, j < (scoringTrg M source target).length →
      incrementsAt N (scoringSrc M source target) (scoringTrg M source target) j =
        incrementsAt M (scoringSrc M source target) (scoringTrg M source target) j)
    (hlink : ∀ j, j < (scoringTrg M source target).length →
      linkAt N (scoringSrc M source target) (scoringTrg M source target) j =
        linkAt M (scoringSrc M source target) (scoringTrg M source target) j) :
    ComputeAlignment N source target outTable outAlignment =
      ComputeAlignment M source target outTable outAlignment := by
  have hs : scoringSrc N source target = scoringSrc M source target := by
    simp [scoringSrc, hrev]
  have ht : scoringTrg N source target = scoringTrg M source target := by
    simp [scoringTrg, hrev]
  rw [ComputeAlignment_eq, ComputeAlignment_eq, emittedLinks_eq, emittedLinks_eq, hs, ht]
  have h1 : (List.range (scoringTrg M source target).length).map
        (featureTerm N (scoringSrc M source target) (scoringTrg M source target)) =
      (List.range (scoringTrg M source target).length).map
        (featureTerm M (scoringSrc M source target) (scoringTrg M source target)) :=
    List.map_congr_left (fun j hj => hfeat j (List.mem_range.1 hj))
  have h2 : (List.range (scoringTrg M source target).length).flatMap
        (incrementsAt N (scoringSrc M source target) (scoringTrg M source target)) =
      (List.range (scoringTrg M source target).length).flatMap
        (incrementsAt M (scoringSrc M source target) (scoringTrg M source target)) :=
    List.flatMap_congr (fun j hj => hinc j (List.mem_range.1 hj))
  have h3 : (List.range (scoringTrg M source target).length).flatMap
        (linkAt N (scoringSrc M source target) (scoringTrg M source target)) =
      (List.range (scoringTrg M source target).length).flatMap
        (linkAt M (scoringSrc M source target) (scoringTrg M source target)) :=
    List.flatMap_congr (fun j hj => hlink j (List.mem_range.1 hj))
  rw [h1, h2, h3]

theorem candidates_congr (M N : Model K) (m : Nat) (hn : N.use_null = M.use_null) :
    candidates N m = candidates M m := by
  simp [candidates, hn]

theorem sum_map_const_mul (l : List Nat) (f : Nat → K) (k : K) :
    (l.map (fun c => k * f c)).sum = k * (l.map f).sum := by
  induction l with
  | nil => simp
  | cons a l ih => simp [ih, mul_add]

theorem posterior_scaled (M N : Model K) (src trg : List wid_t) (j : Nat) (k : K)
    (hk : k ≠ 0) (hn : N.use_null = M.use_null)
    (hscore : ∀ c ∈ candidates M src.length,
      score N src trg j c = k * score M src trg j c)
    (c : Nat) (hc : c ∈ candidates M src.length) :
    posterior N src trg j c = posterior M src trg j c := by
  have hcand := candidates_congr M N src.length hn
  have hsum : normSum N src trg j = k * normSum M src trg j := by
    unfold normSum
    rw [hcand, ← sum_map_const_mul]
    exact congrArg List.sum (List.map_congr_left hscore)
  rw [posterior_eq N src trg j c (by rw [hcand]; exact hc), posterior_eq M src trg j c hc,
    hsum, hscore c hc]
  exact mul_div_mul_left _ _ hk

theorem featureTerm_scaled (M N : Model K) (src trg : List wid_t) (j : Nat) (k : K)
    (hk : k ≠ 0) (hn : N.use_null = M.use_null)
    (hdiag : N.diagonal.Feature = M.diagonal.Feature)
    (hscore : ∀ c ∈ candidates M src.length,
      score N src trg j c = k * score M src trg j c) :
    featureTerm N src trg j = featureTerm M src trg j := by
  unfold featureTerm
  congr 1
  apply List.map_congr_left
  intro i hi
  have hi2 : i ∈ candidates M src.length := by
    rw [mem_candidates]; right; simp at hi; omega
  rw [posterior_scaled M N src trg j k hk hn hscore i hi2, hdiag]

theorem incrementsAt_scaled (M N : Model K) (src trg : List wid_t) (j : Nat) (k : K)
    (hk : k ≠ 0) (hn : N.use_null = M.use_null)
    (hnull : N.kAlignerNullWord = M.kAlignerNullWord)
    (hscore : ∀ c ∈ candidates M src.length,
      score N src trg j c = k * score M src trg j c) :
    incrementsAt N src trg j = incrementsAt M src trg j := by
  unfold incrementsAt
  rw [candidates_congr M N src.length hn]
  apply List.map_congr_left
  intro c hc
  rw [posterior_scaled M N src trg j k hk hn hscore c hc]
  simp [candidateToken, hnull]

theorem bestLoop_scaled (M N : Model K) (m : Nat) (p q : List K) (k : K) (hk : 0 < k)
    (hn : N.use_null = M.use_null)
    (hq : ∀ c ∈ candidates M m, q.getD c 0 = k * p.getD c 0)
    (hpos : M.use_null = false → ∃ i, 1 ≤ i ∧ i ≤ m ∧ -1 < p.getD i 0)
    (hpos2 : M.use_null = false → ∃ i, 1 ≤ i ∧ i ≤ m ∧ -1 < q.getD i 0) :
    (bestLoop N m q).max_index = (bestLoop M m p).max_index := by
  obtain ⟨a1, a2, a3, a4⟩ := bestLoop_spec M m p hpos
  obtain ⟨b1, b2, b3, b4⟩ := bestLoop_spec N m q (by rw [hn]; exact hpos2)
  rw [candidates_congr M N m hn] at b2 b3 b4
  have hle : ∀ c ∈ candidates M m, ∀ d ∈ candidates M m,
      q.getD c 0 ≤ q.getD d 0 → p.getD c 0 ≤ p.getD d 0 := by
    intro c hc d hd h
    rw [hq c hc, hq d hd] at h
    exact le_of_mul_le_mul_left h hk
  have hlt : ∀ c ∈ candidates M m, ∀ d ∈ candidates M m,
      q.getD c 0 < q.getD d 0 → p.getD c 0 < p.getD d 0 := by
    intro c hc d hd h
    rw [hq c hc, hq d hd] at h
    exact lt_of_mul_lt_mul_left h (le_of_lt hk)
  have e1 : (((bestLoop M m p).max_index.toNat : Nat) : Int) = (bestLoop M m p).max_index :=
    Int.toNat_of_nonneg a1
  have e2 : (((bestLoop N m q).max_index.toNat : Nat) : Int) = (bestLoop N m q).max_index :=
    Int.toNat_of_nonneg b1
  rcases lt_trichotomy (bestLoop N m q).max_index (bestLoop M m p).max_index with h | h | h
  · have h1 := a4 _ b2 (by rw [e2]; exact h)
    have h2 := hle _ a2 _ b2 (b3 _ a2)
    exact absurd h1 (not_lt.2 h2)
  · exact h
  · have h1 := hlt _ a2 _ b2 (b4 _ a2 (by rw [e1]; exact h))
    have h2 := a3 _ b2
    exact absurd h1 (not_lt.2 h2)

theorem linkAt_scaled (M N : Model K) (src trg : List wid_t) (j : Nat) (k : K) (hk : 0 < k)
    (hn : N.use_null = M.use_null) (hrev : N.is_reverse = M.is_reverse)
    (hscore : ∀ c ∈ candidates M src.length,
      score N src trg j c = k * score M src trg j c)
    (hpos : M.use_null = false →
      ∃ i, 1 ≤ i ∧ i ≤ src.length ∧ -1 < (scoresAt M src trg j).probs.getD i 0)
    (hpos2 : M.use_null = false →
      ∃ i, 1 ≤ i ∧ i ≤ src.length ∧ -1 < (scoresAt N src trg j).probs.getD i 0) :
    linkAt N src trg j = linkAt M src trg j := by
  have hsel : selected N src trg j = selected M src trg j := by
    unfold selected
    apply bestLoop_scaled M N src.length _ _ k hk hn _ hpos hpos2
    intro c hc
    rw [scoresAt_getD M src trg j c hc,
      scoresAt_getD N src trg j c (by rw [candidates_congr M N src.length hn]; exact hc)]
    exact hscore c hc
  rw [linkAt_eq, linkAt_eq, hsel, hrev]

theorem score_rescale (M : Model K) (c : K) (src trg : List wid_t) (j i : Nat) :
    score (rescale M c) src trg j i = c * score M src trg j i := by
  have h1 : nullWeight (rescale M c) src.length = nullWeight M src.length := rfl
  have h2 : srcWeight (rescale M c) j trg.length src.length i =
      srcWeight M j trg.length src.length i := rfl
  unfold score
  rw [h1, h2]
  by_cases hi : i = 0
  · rw [if_pos hi, if_pos hi]
    show c * M.GetProbability M.kAlignerNullWord (trg.getD j 0) * nullWeight M src.length = _
    rw [mul_assoc]
  · rw [if_neg hi, if_neg hi]
    show c * M.GetProbability (src.getD (i - 1) 0) (trg.getD j 0) *
      srcWeight M j trg.length src.length i = _
    rw [mul_assoc]

theorem score_null_mass (M : Model K) (p q : K) (src trg : List wid_t) (j i : Nat)
    (hd : M.favor_diagonal = true) (hi : i ≠ 0) (hp : p < 1) (hq : q < 1)
    (hZ : 0 < M.diagonal.ComputeZ (j + 1) trg.length src.length M.diagonal_tension) :
    score { M with prob_align_null := q } src trg j i =
      (1 - q) / (1 - p) * score { M with prob_align_null := p } src trg j i := by
  have hp0 : (1 - p) ≠ 0 := by linarith
  have hq0 : (1 - q) ≠ 0 := by linarith
  have hZ0 := ne_of_gt hZ
  simp only [score, srcWeight, computeAz, hd, hi, if_true, if_false]
  field_simp
  ring

/-! ### The batch loop (lines 20-34) -/

theorem length_resize (a : List alignment_t) (n : Nat) : (resize a n).length = n := by
  simp [resize]
  omega

theorem map_range_getD {α β : Type} (l : List α) (d : α) (g : α → β) :
    (List.range l.length).map (fun i => g (l.getD i d)) = l.map g := by
  apply List.ext_getElem
  · simp
  · intro i h1 h2
    simp at h1
    simp [List.getElem?_eq_getElem h1]

theorem set_map_range (n k : Nat) (f : Nat → alignment_t) (x : alignment_t) :
    ((List.range n).map f).set k x = (List.range n).map (fun i => if i = k then x else f i) := by
  apply List.ext_getElem
  · simp
  · intro i h1 h2
    simp at h1
    by_cases hik : i = k
    · subst hik
      simp
    · have hki : ¬ k = i := fun h => hik h.symm
      simp [List.getElem_set, hik, hki]

theorem getD_map_range (n k : Nat) (f : Nat → alignment_t) (hk : k < n) :
    ((List.range n).map f).getD k [] = f k := by
  simp [hk]

theorem batch_spec (M : Model K) (batch : List (List wid_t × List wid_t)) (outTable : Bool)
    (a : Option (List alignment_t)) (n k : Nat) (hk : k ≤ n) :
    (List.range k).foldl (batchStep M batch outTable)
        { emp_feat := 0, increments := [],
          outAlignments := a.map (fun x => (List.range n).map (fun i => x.getD i [])) } =
      { emp_feat := ((List.range k).map (fun i =>
          (ComputeAlignment M (batch.getD i ([], [])).1 (batch.getD i ([], [])).2 outTable
            none).emp_feat)).sum
        increments := (List.range k).flatMap (fun i =>
          (ComputeAlignment M (batch.getD i ([], [])).1 (batch.getD i ([], [])).2 outTable
            none).increments)
        outAlignments := a.map (fun x => (List.range n).map (fun i =>
          if i < k then
            x.getD i [] ++
              emittedLinks M (batch.getD i ([], [])).1 (batch.getD i ([], [])).2
          else x.getD i [])) } := by
  induction k with
  | zero => simp
  | succ k ih =>
    rw [List.range_succ, List.foldl_append, ih (by omega)]
    simp only [List.foldl_cons, List.foldl_nil, batchStep]
    cases a with
    | none =>
      simp [ComputeAlignment_eq]
    | some x =>
      have hk2 : k < n := by omega
      simp only [Option.map_some', ComputeAlignment_eq, Option.getD_some]
      rw [getD_map_range n k _ hk2, set_map_range]
      simp only [lt_irrefl, if_false, List.map_append, List.map_cons, List.map_nil,
        List.sum_append, List.sum_cons, List.sum_nil, add_zero, List.flatMap_append,
        List.flatMap_cons, List.flatMap_nil, List.append_nil]
      congr 2
      apply List.map_congr_left
      intro i _
      by_cases hik : i = k
      · subst hik
        simp
      · by_cases hlt : i < k
        · have : i < k + 1 := by omega
          simp [hik, hlt, this]
        · have : ¬ i < k + 1 := by omega
          simp [hik, hlt, this]

theorem ComputeAlignments_eq (M : Model K) (batch : List (List wid_t × List wid_t))
    (outTable : Bool) (a : Option (List alignment_t)) :
    ComputeAlignments M batch outTable a =
      { emp_feat := (batch.map (fun p =>
          (ComputeAlignment M p.1 p.2 outTable none).emp_feat)).sum
        increments := batch.flatMap (fun p =>
          (ComputeAlignment M p.1 p.2 outTable none).increments)
        outAlignments := a.map (fun x => (List.range batch.length).map (fun i =>
          (resize x batch.length).getD i [] ++
            emittedLinks M (batch.getD i ([], [])).1 (batch.getD i ([], [])).2)) } := by
  have hinit : (match a with
      | some x => some (resize x batch.length)
      | none => none) =
      (a.map (fun x => resize x batch.length)).map
        (fun x => (List.range batch.length).map (fun i => x.getD i [])) := by
    cases a with
    | none => rfl
    | some x =>
      simp only [Option.map_some']
      congr 1
      have h := map_range_getD (resize x batch.length) [] id
      rw [length_resize] at h
      simpa using h.symm
  unfold ComputeAlignments
  simp only [hinit]
  rw [batch_spec M batch outTable _ batch.length batch.length (le_refl _)]
  have h1 := map_range_getD batch ([], []) (fun p =>
    (ComputeAlignment M p.1 p.2 outTable none).emp_feat)
  have h2 := map_range_getD batch ([], []) (fun p =>
    (ComputeAlignment M p.1 p.2 outTable none).increments)
  have h3 : (List.range batch.length).flatMap (fun i =>
      (ComputeAlignment M (batch.getD i ([], [])).1 (batch.getD i ([], [])).2 outTable
        none).increments) =
      batch.flatMap (fun p => (ComputeAlignment M p.1 p.2 outTable none).increments) := by
    rw [List.flatMap_def, List.flatMap_def, h2]
  rw [h1, h3]
  congr 1
  cases a with
  | none => rfl
  | some x =>
    simp only [Option.map_some']
    congr 1
    apply List.map_congr_left
    intro i hi
    have hi2 : i < batch.length := List.mem_range.1 hi
    simp [hi2]

theorem getD_resize (x : List alignment_t) (n i : Nat) (hi : i < n) :
    (resize x n).getD i [] = x.getD i [] := by
  unfold resize
  by_cases hx : i < x.length
  · have h1 : i < (x.take n).length := by simp; omega
    simp [List.getElem?_append_left h1, List.getElem?_take, hi]
  · have h1 : (x.take n).length ≤ i := by simp; omega
    have h2 : x[i]? = none := List.getElem?_eq_none (by omega)
    simp only [List.getD_eq_getElem?_getD, List.getElem?_append_right h1, h2, Option.getD_none]
    rw [List.getElem?_replicate]
    split <;> rfl

theorem outAlignments_eq (M : Model K) (batch : List (List wid_t × List wid_t))
    (outTable : Bool) (x : List alignment_t) :
    (ComputeAlignments M batch outTable (some x)).outAlignments =
      some ((List.range batch.length).map (fun i =>
        x.getD i [] ++
          emittedLinks M (batch.getD i ([], [])).1 (batch.getD i ([], [])).2)) := by
  rw [ComputeAlignments_eq]
  simp only [Option.map_some']
  congr 1
  apply List.map_congr_left
  intro i hi
  rw [getD_resize x batch.length i (List.mem_range.1 hi)]

theorem outAlignments_nil (M : Model K) (batch : List (List wid_t × List wid_t))
    (outTable : Bool) :
    (ComputeAlignments M batch outTable (some [])).outAlignments =
      some (batch.map (fun p => emittedLinks M p.1 p.2)) := by
  rw [outAlignments_eq]
  have h := map_range_getD batch ([], []) (fun p => emittedLinks M p.1 p.2)
  simpa using h

/-! ### A strict maximum is selected -/

theorem selected_eq_of_strict_max (M : Model K) (src trg : List wid_t) (j s : Nat)
    (hs1 : 1 ≤ s) (hs2 : s ≤ src.length)
    (hpos : -1 < (scoresAt M src trg j).probs.getD s 0)
    (hmax : ∀ c ∈ candidates M src.length, c ≠ s →
      (scoresAt M src trg j).probs.getD c 0 < (scoresAt M src trg j).probs.getD s 0) :
    selected M src trg j = (s : Int) := by
  obtain ⟨a1, a2, a3, _⟩ := bestLoop_spec M src.length (scoresAt M src trg j).probs
    (fun _ => ⟨s, hs1, hs2, hpos⟩)
  have hs : s ∈ candidates M src.length := (mem_candidates M _ s).2 (Or.inr ⟨hs1, hs2⟩)
  have heq : (bestLoop M src.length (scoresAt M src trg j).probs).max_index.toNat = s := by
    by_contra hne
    exact absurd (hmax _ a2 hne) (not_lt.2 (a3 s hs))
  unfold selected
  rw [← Int.toNat_of_nonneg a1, heq]

theorem specFeature_diag (l k : Nat) : specFeature (K := K) l l k k = 0 := by
  simp [specFeature]

theorem specFeature_off_diag (l i k : Nat) (hk : 1 ≤ k) (hne : i ≠ l) :
    specFeature (K := K) l i k k < 0 := by
  unfold specFeature
  apply neg_neg_of_pos
  apply abs_pos.2
  rw [← sub_div]
  apply div_ne_zero
  · exact sub_ne_zero.2 (fun h => hne (Nat.cast_injective h))
  · exact ne_of_gt (Nat.cast_pos.2 (by omega))

/-! ### The diagonal prior of the spec over the reals -/

theorem diagonal_selected (M : Model ℝ) (src trg : List wid_t) (c : ℝ) (j : Nat)
    (hd : M.favor_diagonal = true) (hn : M.use_null = false)
    (ht : 0 < M.diagonal_tension) (hc : 0 < c) (htab : ∀ e f, M.GetProbability e f = c)
    (hdiag : M.diagonal = priorWith Real.exp) (hp : M.prob_align_null < 1)
    (hlen : src.length = trg.length) (hj : j < trg.length) :
    selected M src trg j = ((j + 1 : Nat) : Int) := by
  have hm : 1 ≤ src.length := by omega
  have hZ : 0 < M.diagonal.ComputeZ (j + 1) trg.length src.length M.diagonal_tension := by
    rw [hdiag]
    apply sum_pos_of_nonneg_of_exists
    · intro x hx
      obtain ⟨i, _, rfl⟩ := List.mem_map.1 hx
      exact le_of_lt (Real.exp_pos _)
    · exact ⟨_, List.mem_map.2 ⟨1, by simp; omega, rfl⟩, Real.exp_pos _⟩
  have haz : 0 < computeAz M j trg.length src.length := by
    unfold computeAz
    rw [if_pos hd]
    exact div_pos hZ (by linarith)
  have hscore : ∀ i, i ≠ 0 → score M src trg j i =
      c * (Real.exp (M.diagonal_tension * specFeature (j + 1) i trg.length src.length) /
        computeAz M j trg.length src.length) := by
    intro i hi
    unfold score srcWeight
    rw [if_neg hi, if_pos hd, htab, hdiag]
    rfl
  have hcand : ∀ i ∈ candidates M src.length, 1 ≤ i ∧ i ≤ src.length := by
    intro i hi
    rcases (mem_candidates M _ i).1 hi with ⟨_, h⟩ | h
    · rw [hn] at h; exact absurd h (by simp)
    · exact h
  have hj1 : j + 1 ∈ candidates M src.length :=
    (mem_candidates M _ _).2 (Or.inr ⟨by omega, by omega⟩)
  apply selected_eq_of_strict_max M src trg j (j + 1) (by omega) (by omega)
  · rw [scoresAt_getD M src trg j _ hj1, hscore _ (by omega)]
    exact lt_trans (by norm_num) (mul_pos hc (div_pos (Real.exp_pos _) haz))
  · intro i hi hne
    obtain ⟨hi1, hi2⟩ := hcand i hi
    rw [scoresAt_getD M src trg j i hi, scoresAt_getD M src trg j _ hj1,
      hscore i (by omega), hscore (j + 1) (by omega)]
    apply mul_lt_mul_of_pos_left _ hc
    apply (div_lt_div_iff_of_pos_right haz).2
    apply Real.exp_lt_exp.2
    rw [← hlen, specFeature_diag, mul_zero]
    exact mul_neg_of_pos_of_neg ht (specFeature_off_diag (j + 1) i src.length hm hne)

theorem flatMap_singleton_eq_map {α β : Type} (l : List α) (g : α → β) :
    l.flatMap (fun x => [g x]) = l.map g := by
  induction l with
  | nil => rfl
  | cons a l ih => simp [List.flatMap_cons, ih]

theorem applyIncrements_perm (T : wid_t → wid_t → K) (l r : List (wid_t × wid_t × K))
    (h : l.Perm r) (e f : wid_t) : applyIncrements T l e f = applyIncrements T r e f := by
  rw [applyIncrements_apply, applyIncrements_apply]
  congr 1
  exact ((h.filter _).map _).sum_eq

theorem bestLoop_none (M : Model K) (m : Nat) (probs : List K) (hn : M.use_null = false)
    (hall : ∀ i, 1 ≤ i → i ≤ m → probs.getD i 0 ≤ -1) :
    (bestLoop M m probs).max_index = -1 := by
  obtain ⟨_, _, hC⟩ := foldl_bestBody probs (bestInit M probs) m
  have hinit : bestInit M probs = { max_p := -1, max_index := -1 } := by
    simp [bestInit, hn]
  unfold bestLoop
  rw [hinit] at hC ⊢
  generalize (List.range' 1 m).foldl (bestBody probs) { max_p := -1, max_index := -1 } = b
    at hC ⊢
  rcases hC with hC | ⟨h1, h2, h3, h4, _⟩
  · rw [hC]
  · exfalso
    have hnat : ((b.max_index.toNat : Nat) : Int) = b.max_index :=
      Int.toNat_of_nonneg (by omega)
    have hle := hall b.max_index.toNat (by omega) (by omega)
    rw [← h3] at hle
    exact absurd h4 (not_lt.2 hle)

/-! ### Rounding in `double` arithmetic

The statements proved over a field describe the code in exact arithmetic.  The following
evaluations of the same definitions over `Dbl` show what rounding and underflow change. -/

/-- Over `double`, the strictly positive table `2^-1074` gives a normalisation sum of 0: with
two source words the weight is `0.5` and each product `2^-1074 * 0.5` underflows to 0. -/
theorem double_underflow_zero_sum :
    (∀ e f, (0 : Dbl) < tinyModel.GetProbability e f) ∧
      (scoresAt tinyModel [7, 8] [9] 0).sum = 0 := by
  constructor
  · intro e f
    show (0 : Dbl) < Dbl.fin false 1 (-1074)
    set_option exponentiation.threshold 3000 in
    set_option maxRecDepth 100000 in
    decide
  · set_option exponentiation.threshold 3000 in
    set_option maxRecDepth 100000 in
    decide

/-- Over `double`, rescaling the table of `tieModel` by `0.1` changes the emitted link: the
scores `0.75 * 0.5` and `(0.75 + 2^-53) * 0.5` differ and position 2 is selected, whereas
the products of the two table values by `0.1` round to the same number and position 1 is
selected. -/
theorem double_rescale_changes_link :
    (0 : Dbl) < oneTenth ∧
      (ComputeAlignment tieModel [7, 8] [9] false (some [])).alignment = some [(1, 0)] ∧
      (ComputeAlignment (rescale tieModel oneTenth) [7, 8] [9] false (some [])).alignment =
        some [(0, 0)] := by
  set_option maxRecDepth 100000 in
  decide

end Lemmas

/-! ## The claims -/

section Claims

variable {K : Type} [LinearOrderedField K]

/-- C1 (the code departs from the contract).  For source `[7]` and target `[9]`, without null
word and diagonal prior and with the table constantly 1, the only posterior is 1 and
`ComputeAlignment` returns `Feature(0, 1, 1, 1) * 1 = -1`: line 90 passes the zero-based `j`
to `Feature`, whereas the contract, like the calls of `ComputeZ` and `UnnormalizedProb` on
lines 64 and 69, uses `j + 1` and gives `feature(1, 1, 1, 1) * 1 = 0`. -/
theorem C1_emp_feat_zero_based_position :
    (ComputeAlignment plainModel [7] [9] false none).emp_feat = -1 ∧
      claimedEmpFeat plainModel [7] [9] = 0 := by
  constructor
  · simp [ComputeAlignment, scorePair, scoringSrc, scoringTrg, plainModel, targetStep,
      fillScores, nullScore, computeAz, scoreBody, nullCount, countBody, flatDiagonal,
      specFeature, List.range_succ, List.range']
  · simp [claimedEmpFeat, posterior, scoresAt, plainModel, fillScores, nullScore, computeAz,
      scoreBody, flatDiagonal, specFeature, List.range_succ, List.range']

/-- C2 (counterexample).  With an empty source, no null word and the strictly positive table
`1`, target position 0 has no candidate: nothing is passed to `increment` and the posterior
values sum to 0, not to 1. -/
theorem C2_counterexample_no_candidate :
    (∀ e f, 0 < plainModel.GetProbability e f) ∧
      (amountsAt plainModel [] [9] 0 (List.replicate 1 0)).sum ≠ 1 := by
  constructor
  · intro e f
    simp [plainModel]
  · simp [amountsAt, plainModel, targetStep, fillScores, nullScore, computeAz, nullCount,
      List.range']

/-- C2 (amended).  At every target position whose normalisation sum is not 0, the amounts
passed to `increment` for that position, `probs[0] / sum` when `use_null` is on and
`probs[i] / sum` for `i = 1 .. m`, sum to 1; `probs` is the array on entry, of any contents. -/
theorem C2_posterior_sums_to_one (M : Model K) (src trg : List wid_t) (j : Nat)
    (probs : List K) (hlen : probs.length = src.length + 1)
    (hsum : (fillScores M src (trg.getD j 0) j trg.length src.length probs).sum ≠ 0) :
    (amountsAt M src trg j probs).sum = 1 := by
  rw [amountsAt_eq M src trg j probs hlen]
  rw [fillScores_sum M src trg j probs hlen] at hsum
  exact sum_posterior M src trg j hsum

/-- C2 (witness): source `[7, 8]`, target `[9]`, null word enabled, table constantly 1: the
sum is 1 and the three amounts 1/3 add up to 1. -/
theorem C2_posterior_sums_to_one_witness :
    ([0, 0, 0] : List ℚ).length = [7, 8].length + 1 ∧
      (fillScores nullModel [7, 8] ([9].getD 0 0) 0 [9].length [7, 8].length [0, 0, 0]).sum ≠ 0 ∧
      (amountsAt nullModel [7, 8] [9] 0 [0, 0, 0]).sum = 1 :=
  ⟨rfl,
    by
      simp [nullModel, plainModel, fillScores, nullScore, computeAz, scoreBody, List.range']
      norm_num,
    C2_posterior_sums_to_one nullModel [7, 8] [9] 0 [0, 0, 0] rfl
      (by
        simp [nullModel, plainModel, fillScores, nullScore, computeAz, scoreBody, List.range']
        norm_num)⟩

/-- C3.  With an accumulator sink, `ComputeAlignment` issues for every target position `j`, in
order, the increment `(kAlignerNullWord, trg[j], posterior_j(0))` exactly when `use_null` is on,
and then `(src[i - 1], trg[j], posterior_j(i))` for `i = 1 .. m`, and nothing else.  Applied to
an additive table `T`, these calls change entry `(e, f)` by the sum of `posterior_j(c)` over
the positions `j` with `trg[j] = f` and the candidates `c` whose token is `e`; an entry for
which there is no such pair is left as it was, the sum being empty. -/
theorem C3_increments (M : Model K) (source target : List wid_t)
    (outAlignment : Option alignment_t) (T : wid_t → wid_t → K) (e f : wid_t) :
    (ComputeAlignment M source target true outAlignment).increments =
        (List.range (scoringTrg M source target).length).flatMap (fun j =>
          (if M.use_null then
            [(M.kAlignerNullWord, (scoringTrg M source target).getD j 0,
              posterior M (scoringSrc M source target) (scoringTrg M source target) j 0)]
           else []) ++
          (List.range' 1 (scoringSrc M source target).length).map (fun i =>
            ((scoringSrc M source target).getD (i - 1) 0, (scoringTrg M source target).getD j 0,
              posterior M (scoringSrc M source target) (scoringTrg M source target) j i))) ∧
      applyIncrements T (ComputeAlignment M source target true outAlignment).increments e f =
        T e f +
          (((List.range (scoringTrg M source target).length).filter
              (fun j => decide ((scoringTrg M source target).getD j 0 = f))).map
            (fun j =>
              (((candidates M (scoringSrc M source target).length).filter
                  (fun c => decide (candidateToken M (scoringSrc M source target) c = e))).map
                (posterior M (scoringSrc M source target) (scoringTrg M source target) j)).sum)).sum := by
  have hinc : (ComputeAlignment M source target true outAlignment).increments =
      (List.range (scoringTrg M source target).length).flatMap
        (incrementsAt M (scoringSrc M source target) (scoringTrg M source target)) := by
    unfold ComputeAlignment
    rw [scorePair_eq]
    simp
  constructor
  · rw [hinc]
    apply List.flatMap_congr
    intro j _
    unfold incrementsAt candidates
    rw [List.map_append]
    congr 1
    · by_cases hn : M.use_null = true <;> simp [hn, candidateToken]
    · apply List.map_congr_left
      intro i hi
      have hi1 : i ≠ 0 := by simp at hi; omega
      simp [candidateToken, hi1]
  · rw [applyIncrements_apply, hinc, sum_filter_flatMap, sum_map_filter]
    congr 2
    apply List.map_congr_left
    intro j _
    rw [sum_filter_incrementsAt]
    by_cases h : (scoringTrg M source target).getD j 0 = f <;> simp [h]

/-- C4 (counterexample).  The diagonal prior without null word and `prob_align_null = 2`,
source `[7, 8]`, target `[9]`, the table giving `1/4` to the token 7 and `1/2` to the token
8: the scores are `-1/8` and `-1/4` and their sum is negative, so the posteriors are `1/3`
and `2/3`; the code compares the scores, selects position 1 and emits `(0, 0)`, the
candidate of the smaller posterior.  And over the table constantly 1 with source `[7]`, the
only score is `-1`, its posterior is 1, and nothing is selected. -/
theorem C4_counterexample_negative_sum :
    (posterior negSumModel [7, 8] [9] 0 1 = 1 / 3 ∧
        posterior negSumModel [7, 8] [9] 0 2 = 2 / 3 ∧
        selected negSumModel [7, 8] [9] 0 = 1 ∧
        (ComputeAlignment negSumModel [7, 8] [9] false (some [])).alignment =
          some [(0, 0)]) ∧
      (posterior (rescale halfModel 2) [7] [9] 0 1 = 1 ∧
        (ComputeAlignment (rescale halfModel 2) [7] [9] false (some [])).alignment =
          some []) := by
  refine ⟨⟨?_, ?_, ?_, ?_⟩, ⟨?_, ?_⟩⟩
  · simp [posterior, scoresAt, negSumModel, plainModel, flatDiagonal, fillScores, nullScore,
      computeAz, scoreBody, List.range']
    norm_num
  · simp [posterior, scoresAt, negSumModel, plainModel, flatDiagonal, fillScores, nullScore,
      computeAz, scoreBody, List.range']
    norm_num
  · simp [selected, scoresAt, negSumModel, plainModel, flatDiagonal, fillScores, nullScore,
      computeAz, scoreBody, List.range', bestLoop, bestBody, bestInit]
    norm_num
  · simp [ComputeAlignment, scorePair, scoringSrc, scoringTrg, negSumModel, plainModel,
      flatDiagonal, targetStep, fillScores, nullScore, computeAz, scoreBody, nullCount,
      countBody, List.range_succ, List.range', bestLoop, bestBody, bestInit, pushLink]
    norm_num [Int.toNat]
  · simp [posterior, scoresAt, rescale, halfModel, plainModel, flatDiagonal, fillScores,
      nullScore, computeAz, scoreBody, List.range']
    norm_num
  · simp [ComputeAlignment, scorePair, scoringSrc, scoringTrg, rescale, halfModel, plainModel,
      flatDiagonal, targetStep, fillScores, nullScore, computeAz, scoreBody, nullCount,
      countBody, List.range_succ, List.range', bestLoop, bestBody, bestInit, pushLink]
    norm_num [Int.toNat]

/-- C4 (amended).  The sink receives, for each target position `j` in turn, one link to
source position `selected j - 1` when `selected j`, the value of `max_index`, is positive,
and nothing otherwise.  Whatever the array `probs` holds: if `use_null` is on or some score
`probs[i]` exceeds the initial `max_p = -1`, the loop selects a candidate (0 only with
`use_null`) that is the smallest index of maximal score, no candidate having a larger score
and every candidate of smaller index a strictly smaller one; if `use_null` is off and no
score exceeds `-1`, it selects nothing (`max_index = -1`).  In exact arithmetic, at a target
position whose normalisation sum is positive, the selected candidate is also the smallest
index of maximal posterior. -/
theorem C4_selects_first_maximal_score (M : Model K) (source target : List wid_t)
    (outTable : Bool) (a : alignment_t) :
    (ComputeAlignment M source target outTable (some a)).alignment =
        some (a ++ (List.range (scoringTrg M source target).length).flatMap (fun j =>
          if 0 < selected M (scoringSrc M source target) (scoringTrg M source target) j then
            [if M.is_reverse then
              (j, (selected M (scoringSrc M source target) (scoringTrg M source target) j
                - 1).toNat)
             else
              ((selected M (scoringSrc M source target) (scoringTrg M source target) j
                - 1).toNat, j)]
          else [])) ∧
      (∀ (m : Nat) (probs : List K),
        (M.use_null = true ∨ ∃ i, 1 ≤ i ∧ i ≤ m ∧ -1 < probs.getD i 0) →
        0 ≤ (bestLoop M m probs).max_index ∧
        (bestLoop M m probs).max_index.toNat ∈ candidates M m ∧
        (∀ c ∈ candidates M m,
          probs.getD c 0 ≤ probs.getD (bestLoop M m probs).max_index.toNat 0) ∧
        (∀ c ∈ candidates M m, (c : Int) < (bestLoop M m probs).max_index →
          probs.getD c 0 < probs.getD (bestLoop M m probs).max_index.toNat 0)) ∧
      (∀ (m : Nat) (probs : List K), M.use_null = false →
        (∀ i, 1 ≤ i → i ≤ m → probs.getD i 0 ≤ -1) →
        (bestLoop M m probs).max_index = -1) ∧
      (∀ j, j < (scoringTrg M source target).length →
        0 < (scoresAt M (scoringSrc M source target) (scoringTrg M source target) j).sum →
        0 ≤ selected M (scoringSrc M source target) (scoringTrg M source target) j ∧
        (selected M (scoringSrc M source target) (scoringTrg M source target) j).toNat ∈
          candidates M (scoringSrc M source target).length ∧
        (∀ c ∈ candidates M (scoringSrc M source target).length,
          posterior M (scoringSrc M source target) (scoringTrg M source target) j c ≤
            posterior M (scoringSrc M source target) (scoringTrg M source target) j
              (selected M (scoringSrc M source target) (scoringTrg M source target) j).toNat) ∧
        (∀ c ∈ candidates M (scoringSrc M source target).length,
          (c : Int) < selected M (scoringSrc M source target) (scoringTrg M source target) j →
          posterior M (scoringSrc M source target) (scoringTrg M source target) j c <
            posterior M (scoringSrc M source target) (scoringTrg M source target) j
              (selected M (scoringSrc M source target) (scoringTrg M source target) j).toNat)) := by
  refine ⟨?_, ?_, ?_, ?_⟩
  · rw [alignment_eq]
    congr 2
    apply List.flatMap_congr
    intro j _
    exact linkAt_eq M _ _ j
  · intro m probs h
    apply bestLoop_spec M m probs
    intro hn
    rcases h with h | h
    · rw [hn] at h; exact absurd h (by simp)
    · exact h
  · intro m probs hn hall
    exact bestLoop_none M m probs hn hall
  · intro j _ hsum
    obtain ⟨h1, h2, h3, h4⟩ := selected_spec M _ _ j hsum
    refine ⟨h1, h2, ?_, ?_⟩
    · intro c hc
      exact (div_le_div_iff_of_pos_right hsum).2 (h3 c hc)
    · intro c hc hlt
      exact (div_lt_div_iff_of_pos_right hsum).2 (h4 c hc hlt)

/-- C4 (witness): source `[7, 8]`, target `[9]`, null word enabled, table constantly 1; the
sum at the only target position is 1, the three posteriors are `1/3`, and the null candidate
0 is selected: no link is emitted. -/
theorem C4_selects_first_maximal_score_witness :
    0 < (scoresAt nullModel (scoringSrc nullModel [7, 8] [9])
        (scoringTrg nullModel [7, 8] [9]) 0).sum ∧
      (ComputeAlignment nullModel [7, 8] [9] true (some [])).alignment = some [] ∧
      (∀ c ∈ candidates nullModel (scoringSrc nullModel [7, 8] [9]).length,
        posterior nullModel (scoringSrc nullModel [7, 8] [9])
            (scoringTrg nullModel [7, 8] [9]) 0 c ≤
          posterior nullModel (scoringSrc nullModel [7, 8] [9])
            (scoringTrg nullModel [7, 8] [9]) 0
            (selected nullModel (scoringSrc nullModel [7, 8] [9])
              (scoringTrg nullModel [7, 8] [9]) 0).toNat) := by
  have h : 0 < (scoresAt nullModel (scoringSrc nullModel [7, 8] [9])
      (scoringTrg nullModel [7, 8] [9]) 0).sum := by
    simp [scoresAt, scoringSrc, scoringTrg, nullModel, plainModel, fillScores, nullScore,
      computeAz, scoreBody, List.range']
    norm_num
  have hthm := C4_selects_first_maximal_score nullModel [7, 8] [9] true []
  refine ⟨h, ?_, (hthm.2.2.2 0 (by simp [scoringTrg, nullModel, plainModel]) h).2.2.1⟩
  simp [ComputeAlignment, scorePair, scoringSrc, scoringTrg, nullModel, plainModel,
    targetStep, fillScores, nullScore, computeAz, scoreBody, nullCount, countBody,
    List.range_succ, List.range', bestLoop, bestBody, bestInit, pushLink]

/-- C5.  Every link `(a, b)` written into an empty sink is in the orientation of the caller:
`a` is an index into `source` and `b` an index into `target`, as passed.  It stems from a
target position `j` of the scoring whose selected candidate is a real position; with
`is_reverse` on, `a = j` and `b` is the selected position minus one, with `is_reverse` off,
`a` is the selected position minus one and `b = j`. -/
theorem C5_links_in_caller_orientation (M : Model K) (source target : List wid_t)
    (outTable : Bool) (a b : Nat)
    (h : (a, b) ∈ ((ComputeAlignment M source target outTable (some [])).alignment).getD []) :
    a < source.length ∧ b < target.length ∧
      ∃ j, j < (scoringTrg M source target).length ∧
        0 < selected M (scoringSrc M source target) (scoringTrg M source target) j ∧
        if M.is_reverse then
          a = j ∧
            (b : Int) =
              selected M (scoringSrc M source target) (scoringTrg M source target) j - 1
        else
          (a : Int) =
              selected M (scoringSrc M source target) (scoringTrg M source target) j - 1 ∧
            b = j := by
  obtain ⟨j, hj, hsel, hl⟩ := mem_alignment M source target outTable (a, b) h
  have hle := selected_le M (scoringSrc M source target) (scoringTrg M source target) j
  have hnat : (((selected M (scoringSrc M source target) (scoringTrg M source target) j
      - 1).toNat : Nat) : Int) =
      selected M (scoringSrc M source target) (scoringTrg M source target) j - 1 :=
    Int.toNat_of_nonneg (by omega)
  by_cases hr : M.is_reverse = true
  · rw [if_pos hr] at hl
    have ha : a = j := congrArg Prod.fst hl
    have hb : b = (selected M (scoringSrc M source target) (scoringTrg M source target) j
        - 1).toNat := congrArg Prod.snd hl
    have hsrc : (scoringSrc M source target).length = target.length := by simp [scoringSrc, hr]
    have htrg : (scoringTrg M source target).length = source.length := by simp [scoringTrg, hr]
    refine ⟨by omega, by omega, j, hj, hsel, ?_⟩
    rw [if_pos hr]
    exact ⟨ha, by omega⟩
  · rw [if_neg hr] at hl
    have ha : a = (selected M (scoringSrc M source target) (scoringTrg M source target) j
        - 1).toNat := congrArg Prod.fst hl
    have hb : b = j := congrArg Prod.snd hl
    have hsrc : (scoringSrc M source target).length = source.length := by simp [scoringSrc, hr]
    have htrg : (scoringTrg M source target).length = target.length := by simp [scoringTrg, hr]
    refine ⟨by omega, by omega, j, hj, hsel, ?_⟩
    rw [if_neg hr]
    exact ⟨by omega, hb⟩

/-- C5 (witness): in reverse orientation, source `[7, 8]` and target `[9]` give the links
`(0, 0)` and `(1, 0)`; the second one is within both sequences. -/
theorem C5_links_in_caller_orientation_witness :
    (1, 0) ∈ ((ComputeAlignment reverseModel [7, 8] [9] false (some [])).alignment).getD [] ∧
      1 < [7, 8].length ∧ 0 < [9].length := by
  have h : (1, 0) ∈
      ((ComputeAlignment reverseModel [7, 8] [9] false (some [])).alignment).getD [] := by
    simp [ComputeAlignment, scorePair, scoringSrc, scoringTrg, reverseModel, plainModel,
      targetStep, fillScores, nullScore, computeAz, scoreBody, nullCount, countBody,
      List.range_succ, List.range', bestLoop, bestBody, bestInit, pushLink]
  have h2 := C5_links_in_caller_orientation reverseModel [7, 8] [9] false 1 0 h
  exact ⟨h, h2.1, h2.2.1⟩

/-- C6 (counterexample).  Source `S = [7, 8]`, target `T = [9]`, the table preferring the
token 8: the non-reversed call on `(S, T)` emits the link `(1, 0)`, the reversed call on
`(T, S)` emits `(0, 1)`; the two sets of pairs differ. -/
theorem C6_counterexample_transposed :
    (ComputeAlignment { preferModel with is_reverse := false } [7, 8] [9] false
        (some [])).alignment = some [(1, 0)] ∧
      (ComputeAlignment { preferModel with is_reverse := true } [9] [7, 8] false
        (some [])).alignment = some [(0, 1)] ∧
      ¬ (∀ l : Nat × Nat,
        l ∈ ((ComputeAlignment { preferModel with is_reverse := true } [9] [7, 8] false
            (some [])).alignment).getD [] ↔
          l ∈ ((ComputeAlignment { preferModel with is_reverse := false } [7, 8] [9] false
            (some [])).alignment).getD []) := by
  have h1 : (ComputeAlignment { preferModel with is_reverse := false } [7, 8] [9] false
      (some [])).alignment = some [(1, 0)] := by
    simp [ComputeAlignment, scorePair, scoringSrc, scoringTrg, preferModel, plainModel,
      targetStep, fillScores, nullScore, computeAz, scoreBody, nullCount, countBody,
      List.range_succ, List.range', bestLoop, bestBody, bestInit, pushLink]
    norm_num [Int.toNat]
  have h2 : (ComputeAlignment { preferModel with is_reverse := true } [9] [7, 8] false
      (some [])).alignment = some [(0, 1)] := by
    simp [ComputeAlignment, scorePair, scoringSrc, scoringTrg, preferModel, plainModel,
      targetStep, fillScores, nullScore, computeAz, scoreBody, nullCount, countBody,
      List.range_succ, List.range', bestLoop, bestBody, bestInit, pushLink]
    norm_num [Int.toNat]
  refine ⟨h1, h2, ?_⟩
  rw [h1, h2]
  intro hall
  have := (hall (0, 1)).1 (by simp)
  simp at this

/-- C6 (amended).  The reversed call on the swapped sequences scores the same pair as the
non-reversed call, so it returns the same scalar and issues the same increments; its links are
the transposes of the links of the non-reversed call, in the same order: it emits `(b, a)`
where the non-reversed call emits `(a, b)`. -/
theorem C6_reverse_swapped_transposes (M : Model K) (S T : List wid_t) (outTable : Bool) :
    (ComputeAlignment { M with is_reverse := true } T S outTable (some [])).alignment =
        ((ComputeAlignment { M with is_reverse := false } S T outTable (some [])).alignment).map
          (List.map Prod.swap) ∧
      (ComputeAlignment { M with is_reverse := true } T S outTable (some [])).emp_feat =
        (ComputeAlignment { M with is_reverse := false } S T outTable (some [])).emp_feat ∧
      (ComputeAlignment { M with is_reverse := true } T S outTable (some [])).increments =
        (ComputeAlignment { M with is_reverse := false } S T outTable (some [])).increments := by
  have hs1 : scoringSrc { M with is_reverse := true } T S = S := rfl
  have ht1 : scoringTrg { M with is_reverse := true } T S = T := rfl
  have hs2 : scoringSrc { M with is_reverse := false } S T = S := rfl
  have ht2 : scoringTrg { M with is_reverse := false } S T = T := rfl
  unfold ComputeAlignment
  rw [hs1, ht1, hs2, ht2, scorePair_eq, scorePair_eq]
  refine ⟨?_, ?_, ?_⟩
  · simp only [Option.map_some', List.nil_append, List.map_flatMap]
    congr 1
    apply List.flatMap_congr
    intro j _
    exact linkAt_transpose M S T j
  · show ((List.range T.length).map (featureTerm { M with is_reverse := true } S T)).sum =
      ((List.range T.length).map (featureTerm { M with is_reverse := false } S T)).sum
    rfl
  · show (if outTable = true then
        (List.range T.length).flatMap (incrementsAt { M with is_reverse := true } S T) else []) =
      (if outTable = true then
        (List.range T.length).flatMap (incrementsAt { M with is_reverse := false } S T) else [])
    rfl

/-- C7.  Supplying an alignment sink changes neither the returned scalar nor the sequence of
calls to `increment` (keys, amounts and order). -/
theorem C7_alignment_sink_is_frame (M : Model K) (source target : List wid_t)
    (outTable : Bool) (a : alignment_t) :
    (ComputeAlignment M source target outTable (some a)).emp_feat =
        (ComputeAlignment M source target outTable none).emp_feat ∧
      (ComputeAlignment M source target outTable (some a)).increments =
        (ComputeAlignment M source target outTable none).increments := by
  unfold ComputeAlignment
  rw [scorePair_eq, scorePair_eq]
  exact ⟨rfl, rfl⟩

/-- C8 (counterexample).  Over the table that is constantly 0, source `[7]`, target `[9]`,
null word enabled: the normalisation sum of position 0 is 0, and `ComputeAlignment` still
returns and has called `increment` for the null word and for the source token. -/
theorem C8_counterexample_zero_sum :
    (fillScores zeroModel [7] 9 0 1 1 [0, 0]).sum = 0 ∧
      (ComputeAlignment zeroModel [7] [9] true none).increments.map (fun t => (t.1, t.2.1)) =
        [(0, 9), (7, 9)] := by
  constructor
  · simp [zeroModel, nullModel, plainModel, fillScores, nullScore, computeAz, scoreBody,
      List.range']
  · simp [ComputeAlignment, scorePair, scoringSrc, scoringTrg, zeroModel, nullModel, plainModel,
      targetStep, fillScores, nullScore, computeAz, scoreBody, nullCount, countBody,
      List.range_succ, List.range']

/-- C8 (amended).  A normalisation sum of 0 is not detected: in an iteration of the loop over
`j` whose sum is 0, the code still calls `increment` once per candidate, with the quotient
`probs[c] / sum` by that zero sum as amount, adds the feature terms formed with these
quotients to the scalar, and goes on; no failure is raised. -/
theorem C8_zero_sum_not_detected (M : Model K) (src trg : List wid_t) (s : State K) (j : Nat)
    (hlen : s.probs.length = src.length + 1)
    (hzero : (fillScores M src (trg.getD j 0) j trg.length src.length s.probs).sum = 0) :
    (targetStep M src trg src.length trg.length true s j).increments =
        s.increments ++ (candidates M src.length).map (fun c =>
          (candidateToken M src c, trg.getD j 0,
            (fillScores M src (trg.getD j 0) j trg.length src.length s.probs).probs.getD c 0 /
              0)) ∧
      (targetStep M src trg src.length trg.length true s j).emp_feat =
        s.emp_feat + ((List.range' 1 src.length).map (fun i =>
          M.diagonal.Feature j i trg.length src.length *
            ((fillScores M src (trg.getD j 0) j trg.length src.length s.probs).probs.getD i 0 /
              0))).sum := by
  have hsum := fillScores_sum M src trg j s.probs hlen
  rw [hzero] at hsum
  have hget := fillScores_getD M src trg j s.probs hlen
  rw [targetStep_eq M src trg true s j hlen]
  refine ⟨?_, ?_⟩
  · show s.increments ++ (if true = true then incrementsAt M src trg j else []) = _
    rw [if_pos rfl]
    congr 1
    apply List.map_congr_left
    intro c hc
    unfold posterior
    rw [hget c hc, ← hsum]
  · show s.emp_feat + featureTerm M src trg j = _
    congr 1
    unfold featureTerm
    congr 1
    apply List.map_congr_left
    intro i hi
    have hi2 : i ∈ candidates M src.length := by
      rw [mem_candidates]; right; simp at hi; omega
    unfold posterior
    rw [hget i hi2, ← hsum]

/-- C8 (witness): the first iteration over the table that is constantly 0. -/
theorem C8_zero_sum_not_detected_witness :
    (fillScores zeroModel [7] ([9].getD 0 0) 0 [9].length [7].length [0, 0]).sum = 0 ∧
      (targetStep zeroModel [7] [9] [7].length [9].length true
        { emp_feat := 0, probs := [0, 0], increments := [], alignment := none } 0).increments =
        [] ++ (candidates zeroModel [7].length).map (fun c =>
          (candidateToken zeroModel [7] c, [9].getD 0 0,
            (fillScores zeroModel [7] ([9].getD 0 0) 0 [9].length [7].length
              [0, 0]).probs.getD c 0 / 0)) := by
  have h : (fillScores zeroModel [7] ([9].getD 0 0) 0 [9].length [7].length [0, 0]).sum = 0 := by
    simp [zeroModel, nullModel, plainModel, fillScores, nullScore, computeAz, scoreBody,
      List.range']
  exact ⟨h, (C8_zero_sum_not_detected zeroModel [7] [9]
    { emp_feat := 0, probs := [0, 0], increments := [], alignment := none } 0 rfl h).1⟩

/-- C9 (counterexample).  Two inputs with a strictly positive table and a normalisation sum
of 0 at position 0.  With `prob_align_null = -1` under the diagonal prior, source `[7]` and
target `[9]`, the null score is `2 * -1` and the score of the source word `1 * (1 / (1 / 2))`.
With `prob_align_null = 0` under the diagonal prior and an empty source, the null score
`1 * 0` is the only term, and line 78 divides by the sum. -/
theorem C9_counterexample_zero_sum :
    ((∀ e f, 0 < negNullModel.GetProbability e f) ∧
        (fillScores negNullModel [7] 9 0 1 1 [0, 0]).sum = 0) ∧
      ((∀ e f, 0 < zeroNullModel.GetProbability e f) ∧
        (fillScores zeroNullModel [] 9 0 1 0 [0]).sum = 0) := by
  refine ⟨⟨?_, ?_⟩, ⟨?_, ?_⟩⟩
  · intro e f
    by_cases h : e = 0 <;> simp [negNullModel, h]
  · simp [negNullModel, flatDiagonal, fillScores, nullScore, computeAz, scoreBody, List.range']
    norm_num
  · intro e f
    simp [zeroNullModel, diagModel, nullModel, plainModel]
  · simp [zeroNullModel, diagModel, nullModel, plainModel, fillScores, nullScore, List.range']

/-- C9 (amended).  In exact arithmetic, that is over a field, where no product or quotient is
rounded or underflows: let the table be strictly positive and, when the diagonal prior is on,
let `prob_align_null < 1` (and `0 ≤ prob_align_null` when the null word is enabled), the
value of `ComputeZ` at the position be positive and the values of `UnnormalizedProb` at the
position be positive.  If moreover there is a candidate of positive weight, that is the
source is not empty, or the null word is enabled with, under the diagonal prior,
`prob_align_null > 0`, then the normalisation sum of the position is strictly positive.
Over `double` this does not follow: a product of positive numbers can underflow to 0. -/
theorem C9_sum_positive (M : Model K) (src trg : List wid_t) (j : Nat) (probs : List K)
    (hlen : probs.length = src.length + 1)
    (htab : ∀ e f, 0 < M.GetProbability e f)
    (hnull : M.favor_diagonal = true →
      M.prob_align_null < 1 ∧ (M.use_null = true → 0 ≤ M.prob_align_null))
    (hZ : M.favor_diagonal = true →
      0 < M.diagonal.ComputeZ (j + 1) trg.length src.length M.diagonal_tension)
    (hU : M.favor_diagonal = true → ∀ i, 1 ≤ i → i ≤ src.length →
      0 < M.diagonal.UnnormalizedProb (j + 1) i trg.length src.length M.diagonal_tension)
    (hcand : 1 ≤ src.length ∨
      (M.use_null = true ∧ (M.favor_diagonal = true → 0 < M.prob_align_null))) :
    0 < (fillScores M src (trg.getD j 0) j trg.length src.length probs).sum := by
  rw [(fillScores_spec M src trg j probs hlen).1]
  exact normSum_pos M src trg j htab hnull hZ hU hcand

/-- C9 (witness): the diagonal prior with `prob_align_null = 1/10`, null word enabled, the
table constantly 1, source `[7, 8]`, target `[9]`. -/
theorem C9_sum_positive_witness :
    0 < (fillScores diagModel [7, 8] ([9].getD 0 0) 0 [9].length [7, 8].length [0, 0, 0]).sum :=
  C9_sum_positive diagModel [7, 8] [9] 0 [0, 0, 0] rfl
    (by intro e f; simp [diagModel, nullModel, plainModel])
    (by intro _; simp [diagModel, nullModel, plainModel]; norm_num)
    (by intro _; simp [diagModel, nullModel, plainModel, flatDiagonal])
    (by intro _ i _ _; simp [diagModel, nullModel, plainModel, flatDiagonal])
    (Or.inl (by simp))

/-- C10 (counterexample).  In reverse orientation, source `[3, 4]` and target `[5]` give the
links `(0, 0)` and `(1, 0)`: two links with the same second component. -/
theorem C10_counterexample_reverse :
    (ComputeAlignment reverseModel [3, 4] [5] false (some [])).alignment =
        some [(0, 0), (1, 0)] ∧
      ¬ ((((ComputeAlignment reverseModel [3, 4] [5] false (some [])).alignment).getD []).map
        Prod.snd).Nodup := by
  have h : (ComputeAlignment reverseModel [3, 4] [5] false (some [])).alignment =
      some [(0, 0), (1, 0)] := by
    simp [ComputeAlignment, scorePair, scoringSrc, scoringTrg, reverseModel, plainModel,
      targetStep, fillScores, nullScore, computeAz, scoreBody, nullCount, countBody,
      List.range_succ, List.range', bestLoop, bestBody, bestInit, pushLink]
  refine ⟨h, ?_⟩
  rw [h]
  simp

/-- C10 (amended).  In an alignment written into an empty sink, the index of the scored
target position occurs in at most one link: with `is_reverse` off no two links have the same
second component, with `is_reverse` on no two links have the same first component. -/
theorem C10_scored_position_once (M : Model K) (source target : List wid_t)
    (outTable : Bool) :
    ((((ComputeAlignment M source target outTable (some [])).alignment).getD []).map
      (fun l => if M.is_reverse then l.1 else l.2)).Nodup := by
  rw [alignment_eq]
  simp only [Option.getD_some, List.nil_append, List.map_flatMap]
  have hmap : ∀ j, (linkAt M (scoringSrc M source target) (scoringTrg M source target) j).map
        (fun l => if M.is_reverse then l.1 else l.2) =
      if 0 < selected M (scoringSrc M source target) (scoringTrg M source target) j
        then [j] else [] := by
    intro j
    rw [linkAt_eq]
    by_cases h : 0 < selected M (scoringSrc M source target) (scoringTrg M source target) j <;>
      by_cases hr : M.is_reverse = true <;> simp [h, hr]
  simp only [hmap]
  rw [flatMap_ite_singleton]
  exact (List.nodup_range _).filter _

/-- C13.  When the sequence scored as target is empty, `ComputeAlignment` returns 0, makes no
call to `increment` and leaves the alignment sink as it was: a sink that started empty is
empty afterwards. -/
theorem C13_empty_target (M : Model K) (source target : List wid_t) (outTable : Bool)
    (outAlignment : Option alignment_t) (h : scoringTrg M source target = []) :
    (ComputeAlignment M source target outTable outAlignment).emp_feat = 0 ∧
      (ComputeAlignment M source target outTable outAlignment).increments = [] ∧
      (ComputeAlignment M source target outTable outAlignment).alignment = outAlignment ∧
      (ComputeAlignment M source target outTable (some [])).alignment = some [] := by
  rw [ComputeAlignment_eq, ComputeAlignment_eq, emittedLinks_eq, h]
  refine ⟨by simp, by simp, ?_, by simp⟩
  cases outAlignment <;> simp

/-- C13 (witness): the forward model on source `[7, 8]` and an empty target. -/
theorem C13_empty_target_witness :
    scoringTrg plainModel [7, 8] [] = [] ∧
      (ComputeAlignment plainModel [7, 8] [] true (some [])).emp_feat = 0 ∧
      (ComputeAlignment plainModel [7, 8] [] true (some [])).increments = [] ∧
      (ComputeAlignment plainModel [7, 8] [] true (some [])).alignment = some [] :=
  have h := C13_empty_target plainModel [7, 8] [] true (some []) rfl
  ⟨rfl, h.1, h.2.1, h.2.2.2⟩

/-- C14 (counterexample).  With the null word enabled, an empty source and target `[9]`, the
code calls `increment` for the null word: the only candidate has score `1 * (1 / 1)`, the sum
is 1 and the amount is 1. -/
theorem C14_counterexample_null_increment :
    (ComputeAlignment nullModel [] [9] true none).increments = [(0, 9, 1)] := by
  simp [ComputeAlignment, scorePair, scoringSrc, scoringTrg, nullModel, plainModel, targetStep,
    fillScores, nullScore, computeAz, nullCount, List.range_succ, List.range']

/-- C14 (amended).  When the sequence scored as source is empty, `ComputeAlignment` returns 0
and emits no link; it makes no call to `increment` when `use_null` is off or no accumulator is
supplied, and otherwise exactly one call per target position, for the null word, with the
posterior of the null candidate as amount. -/
theorem C14_empty_source (M : Model K) (source target : List wid_t) (outTable : Bool)
    (outAlignment : Option alignment_t) (h : scoringSrc M source target = []) :
    (ComputeAlignment M source target outTable outAlignment).emp_feat = 0 ∧
      (ComputeAlignment M source target outTable outAlignment).alignment = outAlignment ∧
      (ComputeAlignment M source target outTable outAlignment).increments =
        if outTable && M.use_null then
          (List.range (scoringTrg M source target).length).map (fun j =>
            (M.kAlignerNullWord, (scoringTrg M source target).getD j 0,
              posterior M [] (scoringTrg M source target) j 0))
        else [] := by
  rw [ComputeAlignment_eq, emittedLinks_eq, h]
  have hfeat : featureTerm M [] (scoringTrg M source target) = fun _ => 0 :=
    funext (featureTerm_nil M _)
  have hlink : linkAt M [] (scoringTrg M source target) = fun _ => [] :=
    funext (linkAt_nil M _)
  have hinc : ∀ l : List Nat, l.flatMap (incrementsAt M [] (scoringTrg M source target)) =
      if M.use_null then
        l.map (fun j => (M.kAlignerNullWord, (scoringTrg M source target).getD j 0,
          posterior M [] (scoringTrg M source target) j 0))
      else [] := by
    intro l
    induction l with
    | nil => simp
    | cons a l ih =>
      rw [List.flatMap_cons, ih, incrementsAt_nil]
      by_cases hn : M.use_null = true <;> simp [hn]
  refine ⟨?_, ?_, ?_⟩
  · simp [hfeat]
  · cases outAlignment <;> simp [hlink]
  · show (if outTable = true then _ else _) = _
    rw [hinc]
    cases outTable <;> by_cases hn : M.use_null = true <;> simp [hn]

/-- C14 (witness): the forward model with the null word, an empty source and target `[9]`. -/
theorem C14_empty_source_witness :
    scoringSrc nullModel [] [9] = [] ∧
      (ComputeAlignment nullModel [] [9] true (some [])).emp_feat = 0 ∧
      (ComputeAlignment nullModel [] [9] true (some [])).alignment = some [] :=
  have h := C14_empty_source nullModel [] [9] true (some []) rfl
  ⟨rfl, h.1, h.2.1⟩

/-- C12 (counterexample).  Over `double`, without diagonal prior and null word, source
`[7, 8, 6]` and target `[9]`, with `t(8, 9) = 0.75 + 2^-53` and `t = 0.75` otherwise: the
weight is the `double` nearest to `1/3` and the three products round to `0.25`, so position
2 has a larger table probability than position 1 but not a larger posterior, and the link
`(0, 0)` is emitted. -/
theorem C12_counterexample_rounded_tie :
    tieModel.favor_diagonal = false ∧
      candidateProb tieModel [7, 8, 6] [9] 0 1 < candidateProb tieModel [7, 8, 6] [9] 0 2 ∧
      ¬ (posterior tieModel [7, 8, 6] [9] 0 1 < posterior tieModel [7, 8, 6] [9] 0 2) ∧
      (ComputeAlignment tieModel [7, 8, 6] [9] false (some [])).alignment = some [(0, 0)] := by
  set_option maxRecDepth 100000 in
  decide

/-- C12 (amended).  In exact arithmetic, that is over a field: with the diagonal prior off and
a strictly positive table, at every target position `j` the posterior of a candidate `c` is
`t(c, trg[j])` divided by the sum of `t(k, trg[j])` over all candidates `k` (the source
positions, and the null word when `use_null` is on); it does not change when
`prob_align_null` and `diagonal_tension` are replaced by other values; and a candidate `a`
has a larger posterior than a candidate `b` exactly when `t(a, trg[j]) > t(b, trg[j])`. -/
theorem C12_uniform_prior (M : Model K) (src trg : List wid_t) (j : Nat)
    (hd : M.favor_diagonal = false) (htab : ∀ e f, 0 < M.GetProbability e f) :
    (∀ c ∈ candidates M src.length,
        posterior M src trg j c =
          candidateProb M src trg j c /
            ((candidates M src.length).map (candidateProb M src trg j)).sum) ∧
      (∀ c ∈ candidates M src.length, ∀ p t : K,
        posterior { M with prob_align_null := p, diagonal_tension := t } src trg j c =
          posterior M src trg j c) ∧
      (∀ a ∈ candidates M src.length, ∀ b ∈ candidates M src.length,
        (posterior M src trg j b < posterior M src trg j a ↔
          candidateProb M src trg j b < candidateProb M src trg j a)) := by
  refine ⟨fun c hc => posterior_uniform M src trg j c hd hc, ?_, ?_⟩
  · intro c hc p t
    rw [posterior_uniform M src trg j c hd hc]
    exact posterior_uniform { M with prob_align_null := p, diagonal_tension := t } src trg j c
      hd hc
  · intro a ha b hb
    have hpos : 0 < ((candidates M src.length).map (candidateProb M src trg j)).sum := by
      apply sum_pos_of_nonneg_of_exists
      · intro x hx
        obtain ⟨c, _, rfl⟩ := List.mem_map.1 hx
        exact le_of_lt (htab _ _)
      · exact ⟨_, List.mem_map.2 ⟨a, ha, rfl⟩, htab _ _⟩
    rw [posterior_uniform M src trg j a hd ha, posterior_uniform M src trg j b hd hb]
    exact div_lt_div_iff_of_pos_right hpos

/-- C12 (witness): source `[7, 8]`, target `[9]`, the null word enabled and the table giving
`1/2` to the source token 7 and `1/10` to every other token and to the null word.  The
posterior of position 1 is `(1/2) / (1/10 + 1/2 + 1/10)`, and the emitted alignment is
`[(0, 0)]`. -/
theorem C12_uniform_prior_witness :
    scenarioModel.favor_diagonal = false ∧
      (∀ e f, 0 < scenarioModel.GetProbability e f) ∧
      posterior scenarioModel [7, 8] [9] 0 1 =
        candidateProb scenarioModel [7, 8] [9] 0 1 /
          ((candidates scenarioModel [7, 8].length).map
            (candidateProb scenarioModel [7, 8] [9] 0)).sum ∧
      (ComputeAlignment scenarioModel [7, 8] [9] true (some [])).alignment =
        some [(0, 0)] := by
  have htab : ∀ e f, 0 < scenarioModel.GetProbability e f := by
    intro e f
    by_cases h : e = 7 <;> simp [scenarioModel, h]
  refine ⟨rfl, htab, ?_, ?_⟩
  · exact (C12_uniform_prior scenarioModel [7, 8] [9] 0 rfl htab).1 1
      (by simp [candidates, scenarioModel, nullModel, plainModel])
  · simp [ComputeAlignment, scorePair, scoringSrc, scoringTrg, scenarioModel, nullModel,
      plainModel, targetStep, fillScores, nullScore, computeAz, scoreBody, nullCount,
      countBody, List.range_succ, List.range', bestLoop, bestBody, bestInit, pushLink]
    norm_num [Int.toNat]

/-- C16.  Let the table be strictly positive, `0 ≤ prob_align_null < 1`, the value of
`ComputeZ` at the position positive and the values of `UnnormalizedProb` at the position
non-negative.  Then at a target position whose normalisation sum is positive, every amount
passed to `increment` lies between 0 and 1. -/
theorem C16_amounts_in_unit_interval (M : Model K) (src trg : List wid_t) (j : Nat)
    (probs : List K) (hlen : probs.length = src.length + 1)
    (htab : ∀ e f, 0 < M.GetProbability e f)
    (hp0 : 0 ≤ M.prob_align_null) (hp1 : M.prob_align_null < 1)
    (hZ : 0 < M.diagonal.ComputeZ (j + 1) trg.length src.length M.diagonal_tension)
    (hU : ∀ i, 1 ≤ i → i ≤ src.length →
      0 ≤ M.diagonal.UnnormalizedProb (j + 1) i trg.length src.length M.diagonal_tension)
    (hsum : 0 < (fillScores M src (trg.getD j 0) j trg.length src.length probs).sum) :
    ∀ a ∈ amountsAt M src trg j probs, 0 ≤ a ∧ a ≤ 1 := by
  intro a ha
  rw [amountsAt_eq M src trg j probs hlen] at ha
  obtain ⟨c, hc, rfl⟩ := List.mem_map.1 ha
  rw [(fillScores_spec M src trg j probs hlen).1] at hsum
  have hnn : ∀ x ∈ (candidates M src.length).map (score M src trg j), 0 ≤ x := by
    intro x hx
    obtain ⟨k, hk, rfl⟩ := List.mem_map.1 hx
    exact score_nonneg M src trg j k hk (fun e f => le_of_lt (htab e f)) (fun _ _ => hp0)
      (fun _ => hp1) (fun _ => hZ) (fun _ => hU)
  have hle : score M src trg j c ≤ normSum M src trg j :=
    le_sum_of_mem_of_nonneg _ hnn _ (List.mem_map.2 ⟨c, hc, rfl⟩)
  rw [posterior_eq M src trg j c hc]
  exact ⟨div_nonneg (hnn _ (List.mem_map.2 ⟨c, hc, rfl⟩)) (le_of_lt hsum),
    (div_le_one hsum).2 hle⟩

/-- C16 (witness): the diagonal prior with `prob_align_null = 1/10`, the null word, the table
constantly 1, source `[7, 8]`, target `[9]`; the amount `1/10` of the null word is passed to
`increment` and lies between 0 and 1. -/
theorem C16_amounts_in_unit_interval_witness :
    (1 / 10 : ℚ) ∈ amountsAt diagModel [7, 8] [9] 0 [0, 0, 0] ∧
      (0 : ℚ) ≤ 1 / 10 ∧ (1 / 10 : ℚ) ≤ 1 := by
  have hmem : (1 / 10 : ℚ) ∈ amountsAt diagModel [7, 8] [9] 0 [0, 0, 0] := by
    simp [amountsAt, diagModel, nullModel, plainModel, flatDiagonal, targetStep, fillScores,
      nullScore, computeAz, scoreBody, nullCount, countBody, List.range']
    norm_num
  have h := C16_amounts_in_unit_interval diagModel [7, 8] [9] 0 [0, 0, 0] rfl
    (by intro e f; simp [diagModel, nullModel, plainModel])
    (by simp [diagModel, nullModel, plainModel])
    (by simp [diagModel, nullModel, plainModel]; norm_num)
    (by simp [diagModel, nullModel, plainModel, flatDiagonal])
    (by intro i _ _; simp [diagModel, nullModel, plainModel, flatDiagonal])
    (by
      simp [diagModel, nullModel, plainModel, flatDiagonal, fillScores, nullScore, computeAz,
        scoreBody, List.range']
      norm_num)
    (1 / 10) hmem
  exact ⟨hmem, h.1, h.2⟩

/-- C19 (counterexample).  With the diagonal prior, no null word and `prob_align_null = 2`,
source `[7]` and target `[9]`: over the table `1/2` the only score is `-1/2`, which exceeds
the initial `max_p = -1`, and the link `(0, 0)` is emitted; over the table `2 * (1/2)` the
score is `-1`, which does not, and no link is emitted.  Both normalisation sums are non-zero. -/
theorem C19_counterexample_links_change :
    (0 : ℚ) < 2 ∧
      (scoresAt halfModel [7] [9] 0).sum ≠ 0 ∧
      (scoresAt (rescale halfModel 2) [7] [9] 0).sum ≠ 0 ∧
      (ComputeAlignment halfModel [7] [9] false (some [])).alignment = some [(0, 0)] ∧
      (ComputeAlignment (rescale halfModel 2) [7] [9] false (some [])).alignment = some [] := by
  refine ⟨by norm_num, ?_, ?_, ?_, ?_⟩
  · simp [scoresAt, halfModel, plainModel, flatDiagonal, fillScores, nullScore, computeAz,
      scoreBody, List.range']
    norm_num
  · simp [scoresAt, rescale, halfModel, plainModel, flatDiagonal, fillScores, nullScore,
      computeAz, scoreBody, List.range']
    norm_num
  · simp [ComputeAlignment, scorePair, scoringSrc, scoringTrg, halfModel, plainModel,
      flatDiagonal, targetStep, fillScores, nullScore, computeAz, scoreBody, nullCount,
      countBody, List.range_succ, List.range', bestLoop, bestBody, bestInit, pushLink]
    norm_num [Int.toNat]
  · simp [ComputeAlignment, scorePair, scoringSrc, scoringTrg, rescale, halfModel, plainModel,
      flatDiagonal, targetStep, fillScores, nullScore, computeAz, scoreBody, nullCount,
      countBody, List.range_succ, List.range', bestLoop, bestBody, bestInit, pushLink]
    norm_num [Int.toNat]

/-- C19 (amended).  In exact arithmetic, that is over a field: let `c > 0` and let the
normalisation sums of the pair be non-zero.  If
moreover the null word is enabled or no sum is negative (so that the sums are positive), then
replacing the table `t` by `c * t` changes nothing: `ComputeAlignment` returns the same
scalar, makes the same calls to `increment` with the same amounts and emits the same links. -/
theorem C19_rescaling_invariance (M : Model K) (c : K) (source target : List wid_t)
    (outTable : Bool) (outAlignment : Option alignment_t) (hc : 0 < c)
    (hsum : ∀ j, j < (scoringTrg M source target).length →
      (scoresAt M (scoringSrc M source target) (scoringTrg M source target) j).sum ≠ 0)
    (hlinks : M.use_null = true ∨ ∀ j, j < (scoringTrg M source target).length →
      0 ≤ (scoresAt M (scoringSrc M source target) (scoringTrg M source target) j).sum) :
    ComputeAlignment (rescale M c) source target outTable outAlignment =
      ComputeAlignment M source target outTable outAlignment := by
  have hpos : M.use_null = false → ∀ j, j < (scoringTrg M source target).length →
      0 < (scoresAt M (scoringSrc M source target) (scoringTrg M source target) j).sum := by
    intro hn j hj
    rcases hlinks with h | h
    · rw [hn] at h; exact absurd h (by simp)
    · exact lt_of_le_of_ne (h j hj) (Ne.symm (hsum j hj))
  apply ComputeAlignment_congr M (rescale M c) source target outTable outAlignment rfl
  · intro j _
    exact featureTerm_scaled M (rescale M c) _ _ j c (ne_of_gt hc) rfl rfl
      (fun i _ => score_rescale M c _ _ j i)
  · intro j _
    exact incrementsAt_scaled M (rescale M c) _ _ j c (ne_of_gt hc) rfl rfl
      (fun i _ => score_rescale M c _ _ j i)
  · intro j hj
    apply linkAt_scaled M (rescale M c) _ _ j c hc rfl rfl
      (fun i _ => score_rescale M c _ _ j i)
    · intro hn
      exact exists_score_of_sum_pos M _ _ j (hpos hn j hj) hn
    · intro hn
      apply exists_score_of_sum_pos (rescale M c) _ _ j _ hn
      have hs : normSum (rescale M c) (scoringSrc M source target)
          (scoringTrg M source target) j =
          c * normSum M (scoringSrc M source target) (scoringTrg M source target) j := by
        unfold normSum
        rw [← sum_map_const_mul]
        exact congrArg List.sum (List.map_congr_left (fun i _ => score_rescale M c _ _ j i))
      rw [scoresAt_sum, hs]
      have := hpos hn j hj
      rw [scoresAt_sum] at this
      exact mul_pos hc this

/-- C19 (witness): the table of `nullModel` multiplied by 3, on source `[7, 8]` and target
`[9]`; the null word is enabled and the sum of the only position is 1. -/
theorem C19_rescaling_invariance_witness :
    (0 : ℚ) < 3 ∧
      ComputeAlignment (rescale nullModel 3) [7, 8] [9] true (some []) =
        ComputeAlignment nullModel [7, 8] [9] true (some []) := by
  have h : ∀ j, j < (scoringTrg nullModel [7, 8] [9]).length →
      (scoresAt nullModel (scoringSrc nullModel [7, 8] [9])
        (scoringTrg nullModel [7, 8] [9]) j).sum ≠ 0 := by
    intro j hj
    have hj0 : j = 0 := by
      simp [scoringTrg, nullModel, plainModel] at hj
      exact hj
    subst hj0
    simp [scoresAt, scoringSrc, scoringTrg, nullModel, plainModel, fillScores, nullScore,
      computeAz, scoreBody, List.range']
    norm_num
  exact ⟨by norm_num,
    C19_rescaling_invariance nullModel 3 [7, 8] [9] true (some []) (by norm_num) h
      (Or.inl rfl)⟩

/-- C20 (counterexample).  Over `double`, with the diagonal prior (`UnnormalizedProb = 1`,
`ComputeZ = 2`), no null word, source `[7, 8]` and target `[9]`, `t(7, 9) = 0.75` and
`t(8, 9) = 0.75 + 2^-53`: with `prob_align_null = 0` the weight is `0.5`, the scores differ,
the link is `(1, 0)` and the amounts are `0.5` and `0.5 + 2^-53`; with
`prob_align_null = 0.2` the weight rounds to `0.4`, the two scores round to the same number,
the link is `(0, 0)` and both amounts are `0.5`. -/
theorem C20_counterexample_rounding :
    (0 : Dbl) < 1 ∧ oneFifth < 1 ∧
      (0 : Dbl) < (diagTieModel 0).diagonal.ComputeZ 1 1 2 0 ∧
      (ComputeAlignment (diagTieModel 0) [7, 8] [9] true (some [])).alignment =
        some [(1, 0)] ∧
      (ComputeAlignment (diagTieModel 0) [7, 8] [9] true (some [])).increments =
        [(7, 9, oneHalf), (8, 9, oneHalfUp)] ∧
      (ComputeAlignment (diagTieModel oneFifth) [7, 8] [9] true (some [])).alignment =
        some [(0, 0)] ∧
      (ComputeAlignment (diagTieModel oneFifth) [7, 8] [9] true (some [])).increments =
        [(7, 9, oneHalf), (8, 9, oneHalf)] := by
  set_option maxRecDepth 100000 in
  decide

/-- C20 (amended).  In exact arithmetic, that is over a field: with the diagonal prior on and
the null word off, the outcome does not depend on `prob_align_null`: for two values
`p, q < 1`, a positive `ComputeZ`, and the table and
`UnnormalizedProb` non-negative as their contracts say, `ComputeAlignment` returns the same
scalar, makes the same calls to `increment` with the same amounts and emits the same links. -/
theorem C20_null_mass_irrelevant (M : Model K) (p q : K) (source target : List wid_t)
    (outTable : Bool) (outAlignment : Option alignment_t)
    (hd : M.favor_diagonal = true) (hn : M.use_null = false) (hp : p < 1) (hq : q < 1)
    (htab : ∀ e f, 0 ≤ M.GetProbability e f)
    (hZ : ∀ j, j < (scoringTrg M source target).length →
      0 < M.diagonal.ComputeZ (j + 1) (scoringTrg M source target).length
        (scoringSrc M source target).length M.diagonal_tension)
    (hU : ∀ j, j < (scoringTrg M source target).length →
      ∀ i, 1 ≤ i → i ≤ (scoringSrc M source target).length →
        0 ≤ M.diagonal.UnnormalizedProb (j + 1) i (scoringTrg M source target).length
          (scoringSrc M source target).length M.diagonal_tension) :
    ComputeAlignment { M with prob_align_null := q } source target outTable outAlignment =
      ComputeAlignment { M with prob_align_null := p } source target outTable outAlignment := by
  have hk : 0 < (1 - q) / (1 - p) := div_pos (by linarith) (by linarith)
  have hscore : ∀ j, j < (scoringTrg M source target).length →
      ∀ c ∈ candidates { M with prob_align_null := p } (scoringSrc M source target).length,
        score { M with prob_align_null := q } (scoringSrc M source target)
            (scoringTrg M source target) j c =
          (1 - q) / (1 - p) * score { M with prob_align_null := p }
            (scoringSrc M source target) (scoringTrg M source target) j c := by
    intro j hj c hc
    have hc0 : c ≠ 0 := by
      rcases (mem_candidates _ _ c).1 hc with ⟨_, h⟩ | ⟨h, _⟩
      · have h2 : M.use_null = true := h
        rw [hn] at h2; exact absurd h2 (by simp)
      · omega
    exact score_null_mass M p q _ _ j c hd hc0 hp hq (hZ j hj)
  have hnonneg : ∀ (r : K), r < 1 → ∀ j, j < (scoringTrg M source target).length →
      ∀ c ∈ candidates { M with prob_align_null := r } (scoringSrc M source target).length,
        0 ≤ score { M with prob_align_null := r } (scoringSrc M source target)
          (scoringTrg M source target) j c := by
    intro r hr j hj c hc
    apply score_nonneg { M with prob_align_null := r } _ _ j c hc htab
    · intro _ h
      have h2 : M.use_null = true := h
      rw [hn] at h2; exact absurd h2 (by simp)
    · intro _; exact hr
    · intro _; exact hZ j hj
    · intro _; exact hU j hj
  apply ComputeAlignment_congr { M with prob_align_null := p } { M with prob_align_null := q }
    source target outTable outAlignment rfl
  · intro j hj
    exact featureTerm_scaled { M with prob_align_null := p } { M with prob_align_null := q }
      _ _ j _ (ne_of_gt hk) rfl rfl (hscore j hj)
  · intro j hj
    exact incrementsAt_scaled { M with prob_align_null := p } { M with prob_align_null := q }
      _ _ j _ (ne_of_gt hk) rfl rfl (hscore j hj)
  · intro j hj
    by_cases hm : (scoringSrc M source target).length = 0
    · have hnil : scoringSrc { M with prob_align_null := p } source target = [] :=
        List.length_eq_zero.1 hm
      rw [hnil, linkAt_nil, linkAt_nil]
    · have h1 : 1 ∈ candidates M (scoringSrc M source target).length :=
        (mem_candidates M _ 1).2 (Or.inr ⟨le_refl _, by omega⟩)
      apply linkAt_scaled { M with prob_align_null := p } { M with prob_align_null := q }
        _ _ j _ hk rfl rfl (hscore j hj)
      · intro _
        refine ⟨1, le_refl _, by omega, ?_⟩
        rw [scoresAt_getD { M with prob_align_null := p } _ _ j 1 h1]
        exact lt_of_lt_of_le (by norm_num) (hnonneg p hp j hj 1 h1)
      · intro _
        refine ⟨1, le_refl _, by omega, ?_⟩
        rw [scoresAt_getD { M with prob_align_null := q } _ _ j 1 h1]
        exact lt_of_lt_of_le (by norm_num) (hnonneg q hq j hj 1 h1)

/-- C20 (witness): the diagonal prior without null word over the table constantly 1, source
`[7, 8]`, target `[9]`, with `prob_align_null` equal to `1/2` and to `1/10`. -/
theorem C20_null_mass_irrelevant_witness :
    ComputeAlignment { priorModel with prob_align_null := 1 / 2 } [7, 8] [9] true (some []) =
      ComputeAlignment { priorModel with prob_align_null := 1 / 10 } [7, 8] [9] true
        (some []) :=
  C20_null_mass_irrelevant priorModel (1 / 10) (1 / 2) [7, 8] [9] true (some []) rfl rfl
    (by norm_num) (by norm_num)
    (by intro e f; simp [priorModel, plainModel])
    (by intro j _; simp [priorModel, plainModel, flatDiagonal, scoringSrc])
    (by intro j _ i _ _; simp [priorModel, plainModel, flatDiagonal])

/-- C11 (counterexample).  A sink that holds the slot `[(5, 5)]` before the call, and the
batch of the single pair `([7], [9])`: `resize` keeps the slot and `ComputeAlignment` appends
to it, so the slot holds `[(5, 5), (0, 0)]` afterwards, not only the link `(0, 0)` emitted
for the pair. -/
theorem C11_counterexample_kept_slot :
    (ComputeAlignments plainModel [([7], [9])] false (some [[(5, 5)]])).outAlignments =
        some [[(5, 5), (0, 0)]] ∧
      emittedLinks plainModel [7] [9] = [(0, 0)] := by
  constructor
  · simp [ComputeAlignments, batchStep, resize, ComputeAlignment, scorePair, scoringSrc,
      scoringTrg, plainModel, targetStep, fillScores, nullScore, computeAz, scoreBody,
      nullCount, countBody, List.range_succ, List.range', bestLoop, bestBody, bestInit,
      pushLink]
  · simp [emittedLinks, ComputeAlignment, scorePair, scoringSrc,
      scoringTrg, plainModel, targetStep, fillScores, nullScore, computeAz, scoreBody,
      nullCount, countBody, List.range_succ, List.range', bestLoop, bestBody, bestInit,
      pushLink]

/-- C11 (amended).  For a batch of `N` pairs, `ComputeAlignments` returns the sum of the
scalars that `ComputeAlignment` returns for the pairs.  A supplied sink has exactly `N` slots
afterwards, and slot `i` holds what slot `i` held before the call (nothing when the sink had
no slot `i`) followed by the links that `ComputeAlignment` emits for pair `i`; for a sink
that was empty, slot `i` holds exactly these links. -/
theorem C11_batch (M : Model K) (batch : List (List wid_t × List wid_t)) (outTable : Bool)
    (a : Option (List alignment_t)) (x : List alignment_t) :
    (ComputeAlignments M batch outTable a).emp_feat =
        (batch.map (fun p => (ComputeAlignment M p.1 p.2 outTable none).emp_feat)).sum ∧
      (ComputeAlignments M batch outTable (some x)).outAlignments =
        some ((List.range batch.length).map (fun i =>
          x.getD i [] ++
            emittedLinks M (batch.getD i ([], [])).1 (batch.getD i ([], [])).2)) ∧
      (ComputeAlignments M batch outTable (some [])).outAlignments =
        some (batch.map (fun p => emittedLinks M p.1 p.2)) := by
  refine ⟨?_, outAlignments_eq M batch outTable x, outAlignments_nil M batch outTable⟩
  rw [ComputeAlignments_eq]

/-- C17.  In exact arithmetic, for a batch and a permutation of it, `ComputeAlignments`
returns the same scalar and makes the same calls to `increment` up to their order, so that an
additive table ends with the same contents; and from an empty sink the slots are the images
of the pairs under one and the same function, the links emitted for the pair, so that they
are permuted like the pairs. -/
theorem C17_order_independent (M : Model K) (batch other : List (List wid_t × List wid_t))
    (outTable : Bool) (a b : Option (List alignment_t)) (T : wid_t → wid_t → K)
    (e f : wid_t) (h : batch.Perm other) :
    (ComputeAlignments M other outTable b).emp_feat =
        (ComputeAlignments M batch outTable a).emp_feat ∧
      (ComputeAlignments M other outTable b).increments.Perm
        (ComputeAlignments M batch outTable a).increments ∧
      applyIncrements T (ComputeAlignments M other outTable b).increments e f =
        applyIncrements T (ComputeAlignments M batch outTable a).increments e f ∧
      (ComputeAlignments M batch outTable (some [])).outAlignments =
        some (batch.map (fun p => emittedLinks M p.1 p.2)) ∧
      (ComputeAlignments M other outTable (some [])).outAlignments =
        some (other.map (fun p => emittedLinks M p.1 p.2)) := by
  have hperm : (ComputeAlignments M other outTable b).increments.Perm
      (ComputeAlignments M batch outTable a).increments := by
    rw [ComputeAlignments_eq, ComputeAlignments_eq]
    exact (h.flatMap_right _).symm
  refine ⟨?_, hperm, applyIncrements_perm T _ _ hperm e f,
    outAlignments_nil M batch outTable, outAlignments_nil M other outTable⟩
  rw [ComputeAlignments_eq, ComputeAlignments_eq]
  exact ((h.map _).sum_eq).symm

/-- C17 (witness): the batch of the pairs `([7], [9])` and `([7, 8], [9, 4])`, and the same
two pairs in the other order. -/
theorem C17_order_independent_witness :
    (ComputeAlignments plainModel [([7, 8], [9, 4]), ([7], [9])] true (some [])).emp_feat =
        (ComputeAlignments plainModel [([7], [9]), ([7, 8], [9, 4])] true (some [])).emp_feat ∧
      (ComputeAlignments plainModel [([7, 8], [9, 4]), ([7], [9])] true
          (some [])).increments.Perm
        (ComputeAlignments plainModel [([7], [9]), ([7, 8], [9, 4])] true
          (some [])).increments :=
  have h := C17_order_independent plainModel [([7], [9]), ([7, 8], [9, 4])]
    [([7, 8], [9, 4]), ([7], [9])] true (some []) (some []) (fun _ _ => 0) 0 0
    (List.Perm.swap _ _ _)
  ⟨h.1, h.2.1⟩

/-- C15 (counterexample).  The prior of the spec with tension 1, no null word, forward
orientation and the table constantly 1.  With `prob_align_null = 2`, source `[7]` and target
`[9]`: `az = 1 / (1 - 2)`, the only score is `1 * (exp 0 / az) = -1`, which does not exceed
the initial `max_p = -1`, and no link is emitted, where the identity diagonal is `[(0, 0)]`.
With `prob_align_null = 1`, source `[7, 8]` and target `[9, 4]`: `az` is a quotient by
`1 - 1`, every score is 0, and both target positions are linked to source position 0. -/
theorem C15_counterexample_null_mass :
    (ComputeAlignment (diagonalScenario Real.exp 1 2 1) [7] [9] false (some [])).alignment =
        some [] ∧
      (ComputeAlignment (diagonalScenario Real.exp 1 1 1) [7, 8] [9, 4] false
        (some [])).alignment = some [(0, 0), (0, 1)] := by
  constructor
  · simp [ComputeAlignment, scorePair, scoringSrc, scoringTrg, diagonalScenario, priorWith,
      specFeature, targetStep, fillScores, nullScore, computeAz, scoreBody, nullCount,
      countBody, List.range_succ, List.range', bestLoop, bestBody, bestInit, pushLink]
    norm_num
  · simp [ComputeAlignment, scorePair, scoringSrc, scoringTrg, diagonalScenario, priorWith,
      specFeature, targetStep, fillScores, nullScore, computeAz, scoreBody, nullCount,
      countBody, List.range_succ, List.range', bestLoop, bestBody, bestInit, pushLink]

/-- C15 (amended).  In exact arithmetic, over the real numbers with the real exponential:
with the diagonal prior of the spec (`UnnormalizedProb` the exponential of tension times
feature, `ComputeZ` its sum over the source positions), a tension `> 0`,
`prob_align_null < 1`, no null word, forward orientation and a table that is constantly
`c > 0`, the alignment written into an empty sink for a source and a target of the same
length `k` is the identity diagonal `[(0, 0), (1, 1), ..., (k - 1, k - 1)]`. -/
theorem C15_identity_diagonal (M : Model ℝ) (source target : List wid_t) (outTable : Bool)
    (c : ℝ) (hd : M.favor_diagonal = true) (hn : M.use_null = false)
    (hr : M.is_reverse = false) (ht : 0 < M.diagonal_tension) (hc : 0 < c)
    (htab : ∀ e f, M.GetProbability e f = c) (hdiag : M.diagonal = priorWith Real.exp)
    (hp : M.prob_align_null < 1) (hlen : source.length = target.length) :
    (ComputeAlignment M source target outTable (some [])).alignment =
      some ((List.range source.length).map (fun j => (j, j))) := by
  have hs : scoringSrc M source target = source := by simp [scoringSrc, hr]
  have htg : scoringTrg M source target = target := by simp [scoringTrg, hr]
  rw [alignment_eq, hs, htg, hlen, ← flatMap_singleton_eq_map]
  simp only [List.nil_append]
  congr 1
  apply List.flatMap_congr
  intro j hj
  have hsel := diagonal_selected M source target c j hd hn ht hc htab hdiag hp hlen
    (List.mem_range.1 hj)
  rw [linkAt_eq, hsel]
  have h1 : (0 : Int) < ((j + 1 : Nat) : Int) := by omega
  have h2 : (((j + 1 : Nat) : Int) - 1).toNat = j := by omega
  rw [if_pos h1, h2]
  simp [hr]

/-- C15 (witness): source and target of length 3, the table constantly 1, tension 1 and
`prob_align_null = 0`: the alignment is `[(0, 0), (1, 1), (2, 2)]`. -/
theorem C15_identity_diagonal_witness :
    (ComputeAlignment (diagonalScenario Real.exp 1 0 1) [7, 8, 6] [9, 4, 5] false
      (some [])).alignment = some [(0, 0), (1, 1), (2, 2)] :=
  C15_identity_diagonal (diagonalScenario Real.exp 1 0 1) [7, 8, 6] [9, 4, 5] false 1
    rfl rfl rfl (by simp [diagonalScenario]) one_pos (fun _ _ => rfl) rfl
    (by simp [diagonalScenario]) rfl

end Claims

end FastAlign
